import Mathlib

/-!
Verification of the client-side connection and caching runtime of the
react-senior-debug repository: the CacheManager (LRU + TTL + tag index),
the cache strategies, the WebSocketManager (outbound queue, reconnect
backoff, heartbeat monitor, inbound dispatch), the ConnectionPool and the
apiClient request executor.  JavaScript `Map`s are modelled as ordered
association lists (insertion order preserved, keys unique), JS `Set`s as
ordered duplicate-free lists, and JS values by the inductive `JVal`.
-/

namespace Spec2Proof

/-- Model of a JavaScript value as far as the runtime under study inspects
them: `jnull`/`jundef` for the two absent sentinels, primitives, `jerror`
for Error objects (name and message), and `jobj` for any other object
(identified by a token standing for its identity). -/
inductive JVal where
  | jnull
  | jundef
  | jbool (b : Bool)
  | jnum (n : Int)
  | jstr (s : String)
  | jerror (name msg : String)
  | jobj (id : Nat)
deriving Repr, DecidableEq

/-- JavaScript truthiness of a `JVal` (used to model the `||` operator). -/
def JVal.truthy : JVal → Bool
  | .jnull => false
  | .jundef => false
  | .jbool b => b
  | .jnum n => n != 0
  | .jstr s => s ≠ ""
  | .jerror _ _ => true
  | .jobj _ => true

/-- JavaScript `opt || dflt` for an optional numeric option: `0` and
a missing value are falsy and select the default. -/
def jsOrNat (x : Option Nat) (dflt : Nat) : Nat :=
  match x with
  | some n => if n = 0 then dflt else n
  | none => dflt

/-! JS `Map` model: an association list in insertion order.  `jmSet`
replaces in place when the key is present (JS `Map.set` keeps the original
insertion position) and appends otherwise; `jmDelete` removes the entry. -/

def jmLookup {α : Type} : List (String × α) → String → Option α
  | [], _ => none
  | (k', v) :: rest, k => if k' = k then some v else jmLookup rest k

def jmDelete {α : Type} : List (String × α) → String → List (String × α)
  | [], _ => []
  | (k', v) :: rest, k => if k' = k then rest else (k', v) :: jmDelete rest k

def jmSet {α : Type} : List (String × α) → String → α → List (String × α)
  | [], k, v => [(k, v)]
  | (k', v') :: rest, k, v =>
    if k' = k then (k, v) :: rest else (k', v') :: jmSet rest k v

def jmKeys {α : Type} (m : List (String × α)) : List String :=
  m.map Prod.fst

/-! JS `Set` model: a duplicate-free list in insertion order. -/

def jsAdd (s : List String) (k : String) : List String :=
  if k ∈ s then s else s ++ [k]

def jsDelete : List String → String → List String
  | [], _ => []
  | x :: rest, k => if x = k then rest else x :: jsDelete rest k

section MapLemmas

variable {α : Type}

theorem jmLookup_set_self (m : List (String × α)) (k : String) (v : α) :
    jmLookup (jmSet m k v) k = some v := by
  induction m with
  | nil => simp [jmSet, jmLookup]
  | cons p rest ih =>
    obtain ⟨k', v'⟩ := p
    by_cases h : k' = k <;> simp [jmSet, jmLookup, h, ih]

theorem jmLookup_set_ne (m : List (String × α)) {k k' : String} (v : α)
    (h : k' ≠ k) : jmLookup (jmSet m k v) k' = jmLookup m k' := by
  have h' : k ≠ k' := Ne.symm h
  induction m with
  | nil => simp [jmSet, jmLookup, h']
  | cons p rest ih =>
    obtain ⟨k₀, v₀⟩ := p
    by_cases hk : k₀ = k
    · subst hk
      simp [jmSet, jmLookup, h']
    · simp [jmSet, jmLookup, hk, ih]

theorem jmLookup_delete_ne (m : List (String × α)) {k k' : String}
    (h : k' ≠ k) : jmLookup (jmDelete m k) k' = jmLookup m k' := by
  have h' : k ≠ k' := Ne.symm h
  induction m with
  | nil => simp [jmDelete]
  | cons p rest ih =>
    obtain ⟨k₀, v₀⟩ := p
    by_cases hk : k₀ = k
    · subst hk
      simp [jmDelete, jmLookup, h']
    · simp [jmDelete, jmLookup, hk, ih]

theorem jmKeys_cons (k : String) (v : α) (m : List (String × α)) :
    jmKeys ((k, v) :: m) = k :: jmKeys m := rfl

theorem jmLookup_eq_none_iff (m : List (String × α)) (k : String) :
    jmLookup m k = none ↔ k ∉ jmKeys m := by
  induction m with
  | nil => simp [jmLookup, jmKeys]
  | cons p rest ih =>
    obtain ⟨k₀, v₀⟩ := p
    by_cases hk : k₀ = k
    · subst hk
      simp [jmLookup, jmKeys_cons]
    · have hne : ¬ k = k₀ := fun he => hk he.symm
      simp only [jmLookup, if_neg hk, jmKeys_cons, List.mem_cons]
      rw [ih]
      simp [hne]

theorem jmLookup_isSome_iff (m : List (String × α)) (k : String) :
    (jmLookup m k).isSome ↔ k ∈ jmKeys m := by
  rw [Option.isSome_iff_ne_none, Ne, jmLookup_eq_none_iff, not_not]

theorem jmLookup_mem (m : List (String × α)) (k : String) (v : α)
    (h : jmLookup m k = some v) : (k, v) ∈ m := by
  induction m with
  | nil => simp [jmLookup] at h
  | cons p rest ih =>
    obtain ⟨k₀, v₀⟩ := p
    by_cases hk : k₀ = k
    · subst hk
      have hv : v₀ = v := by simpa [jmLookup] using h
      subst hv
      exact List.mem_cons_self _ _
    · simp only [jmLookup, if_neg hk] at h
      exact List.mem_cons_of_mem _ (ih h)

theorem jmLookup_delete_self (m : List (String × α)) (k : String)
    (hnd : (jmKeys m).Nodup) : jmLookup (jmDelete m k) k = none := by
  induction m with
  | nil => simp [jmDelete, jmLookup]
  | cons p rest ih =>
    obtain ⟨k₀, v₀⟩ := p
    obtain ⟨h1, h2⟩ := List.nodup_cons.mp hnd
    by_cases hk : k₀ = k
    · subst hk
      simp only [jmDelete, if_pos rfl]
      exact (jmLookup_eq_none_iff rest k₀).mpr h1
    · simp only [jmDelete, if_neg hk, jmLookup, if_neg hk]
      exact ih h2

theorem jmKeys_delete_sub (m : List (String × α)) (k k' : String)
    (h : k' ∈ jmKeys (jmDelete m k)) : k' ∈ jmKeys m := by
  induction m with
  | nil => simpa [jmDelete] using h
  | cons p rest ih =>
    obtain ⟨k₀, v₀⟩ := p
    by_cases hk : k₀ = k
    · subst hk
      simp only [jmDelete, if_pos rfl] at h
      exact List.mem_cons_of_mem _ h
    · simp only [jmDelete, if_neg hk, jmKeys, List.map_cons, List.mem_cons] at h ⊢
      rcases h with h | h
      · exact Or.inl h
      · exact Or.inr (ih h)

theorem jmKeys_delete_nodup (m : List (String × α)) (k : String)
    (hnd : (jmKeys m).Nodup) : (jmKeys (jmDelete m k)).Nodup := by
  induction m with
  | nil => simp [jmDelete, jmKeys]
  | cons p rest ih =>
    obtain ⟨k₀, v₀⟩ := p
    obtain ⟨h1, h2⟩ := List.nodup_cons.mp hnd
    by_cases hk : k₀ = k
    · subst hk
      simpa [jmDelete] using h2
    · simp only [jmDelete, if_neg hk, jmKeys, List.map_cons]
      exact List.nodup_cons.mpr
        ⟨fun hc => h1 (jmKeys_delete_sub rest k k₀ hc), ih h2⟩

theorem jmKeys_set (m : List (String × α)) (k : String) (v : α) :
    jmKeys (jmSet m k v) = if k ∈ jmKeys m then jmKeys m else jmKeys m ++ [k] := by
  induction m with
  | nil => simp [jmSet, jmKeys]
  | cons p rest ih =>
    obtain ⟨k₀, v₀⟩ := p
    by_cases hk : k₀ = k
    · subst hk
      simp [jmSet, jmKeys]
    · have hne : ¬ k = k₀ := fun he => hk he.symm
      simp only [jmSet, if_neg hk, jmKeys_cons]
      rw [ih]
      by_cases hmem : k ∈ jmKeys rest
      · rw [if_pos hmem, if_pos (by simp [List.mem_cons, hmem])]
      · rw [if_neg hmem, if_neg (by simp [List.mem_cons, hmem, hne]),
          List.cons_append]

theorem jmKeys_set_nodup (m : List (String × α)) (k : String) (v : α)
    (hnd : (jmKeys m).Nodup) : (jmKeys (jmSet m k v)).Nodup := by
  rw [jmKeys_set]
  by_cases hmem : k ∈ jmKeys m
  · simpa [hmem] using hnd
  · simp [hmem, List.nodup_append, hnd]

theorem jmDelete_length_of_mem (m : List (String × α)) (k : String)
    (h : k ∈ jmKeys m) : (jmDelete m k).length + 1 = m.length := by
  induction m with
  | nil => simp [jmKeys] at h
  | cons p rest ih =>
    obtain ⟨k₀, v₀⟩ := p
    by_cases hk : k₀ = k
    · subst hk
      simp [jmDelete]
    · simp only [jmKeys, List.map_cons, List.mem_cons] at h
      rcases h with h | h
      · exact absurd h.symm hk
      · simp only [jmDelete, if_neg hk, List.length_cons]
        rw [← ih h]

theorem jmDelete_length_le (m : List (String × α)) (k : String) :
    (jmDelete m k).length ≤ m.length := by
  induction m with
  | nil => simp [jmDelete]
  | cons p rest ih =>
    obtain ⟨k₀, v₀⟩ := p
    by_cases hk : k₀ = k
    · simp [jmDelete, hk]
    · simp [jmDelete, hk]
      omega

theorem jmDelete_of_not_mem (m : List (String × α)) (k : String)
    (h : k ∉ jmKeys m) : jmDelete m k = m := by
  induction m with
  | nil => simp [jmDelete]
  | cons p rest ih =>
    obtain ⟨k₀, v₀⟩ := p
    simp only [jmKeys, List.map_cons, List.mem_cons, not_or] at h
    have hk : ¬ k₀ = k := fun he => h.1 he.symm
    rw [jmDelete, if_neg hk, ih h.2]

theorem jmSet_length (m : List (String × α)) (k : String) (v : α) :
    (jmSet m k v).length = if k ∈ jmKeys m then m.length else m.length + 1 := by
  induction m with
  | nil => simp [jmSet, jmKeys]
  | cons p rest ih =>
    obtain ⟨k₀, v₀⟩ := p
    by_cases hk : k₀ = k
    · subst hk
      simp [jmSet, jmKeys]
    · have hne : ¬ k = k₀ := fun he => hk he.symm
      simp only [jmSet, if_neg hk, List.length_cons, jmKeys_cons]
      rw [ih]
      by_cases hmem : k ∈ jmKeys rest
      · rw [if_pos hmem, if_pos (by simp [List.mem_cons, hmem])]
      · rw [if_neg hmem, if_neg (by simp [List.mem_cons, hmem, hne])]

end MapLemmas

section SetLemmas

theorem jsDelete_mem_of_ne (s : List String) {k k' : String} (h : k' ≠ k) :
    k' ∈ jsDelete s k ↔ k' ∈ s := by
  induction s with
  | nil => simp [jsDelete]
  | cons x rest ih =>
    by_cases hx : x = k
    · subst hx
      simp [jsDelete, h]
    · simp [jsDelete, hx, ih]

theorem jsDelete_not_mem (s : List String) (k : String) (hnd : s.Nodup) :
    k ∉ jsDelete s k := by
  induction s with
  | nil => simp [jsDelete]
  | cons x rest ih =>
    obtain ⟨h1, h2⟩ := List.nodup_cons.mp hnd
    by_cases hx : x = k
    · subst hx
      simpa [jsDelete] using h1
    · have hk : k ≠ x := fun he => hx he.symm
      simp only [jsDelete, if_neg hx, List.mem_cons, not_or]
      exact ⟨hk, ih h2⟩

theorem jsDelete_nodup (s : List String) (k : String) (hnd : s.Nodup) :
    (jsDelete s k).Nodup := by
  induction s with
  | nil => simp [jsDelete]
  | cons x rest ih =>
    obtain ⟨h1, h2⟩ := List.nodup_cons.mp hnd
    by_cases hx : x = k
    · subst hx
      simpa [jsDelete] using h2
    · simp only [jsDelete, if_neg hx]
      refine List.nodup_cons.mpr ⟨fun hc => ?_, ih h2⟩
      by_cases hxk : x = k
      · exact hx hxk
      · exact h1 ((jsDelete_mem_of_ne rest hxk).mp hc)

theorem jsAdd_mem (s : List String) (k k' : String) :
    k' ∈ jsAdd s k ↔ k' ∈ s ∨ k' = k := by
  by_cases h : k ∈ s
  · simp only [jsAdd, if_pos h]
    constructor
    · exact Or.inl
    · rintro (hm | rfl)
      · exact hm
      · exact h
  · simp [jsAdd, h]

theorem jsAdd_nodup (s : List String) (k : String) (hnd : s.Nodup) :
    (jsAdd s k).Nodup := by
  by_cases h : k ∈ s
  · simpa [jsAdd, h] using hnd
  · simp [jsAdd, h, List.nodup_append, hnd]

theorem jsDelete_of_not_mem (s : List String) (k : String) (h : k ∉ s) :
    jsDelete s k = s := by
  induction s with
  | nil => simp [jsDelete]
  | cons x rest ih =>
    simp only [List.mem_cons, not_or] at h
    have hx : ¬ x = k := fun he => h.1 he.symm
    rw [jsDelete, if_neg hx, ih h.2]

end SetLemmas

/-!
CacheManager (LRU cache with TTL, tag-based invalidation and size limits),
embedded from `CacheManager.js`.  `Date.now()` is passed explicitly as
a `now : Nat` argument to the operations that read the clock.
-/

/-- CacheEntry as constructed by `new CacheEntry(key, value, options)`. -/
structure CacheEntry where
  key : String
  value : JVal
  createdAt : Nat
  lastAccessedAt : Nat
  accessCount : Nat
  ttl : Nat
  tags : List String
  etag : Option String
deriving Repr, DecidableEq

/-- The entry's expiry test `Date.now() - this.createdAt > this.ttl`. -/
def CacheEntry.isExpired (e : CacheEntry) (now : Nat) : Bool :=
  decide (now - e.createdAt > e.ttl)

structure CacheStats where
  hits : Nat
  misses : Nat
  evictions : Nat
  invalidations : Nat
deriving Repr, DecidableEq

structure CacheManager where
  maxEntries : Nat
  defaultTTL : Nat
  cache : List (String × CacheEntry)
  tagIndex : List (String × List String)
  stats : CacheStats
deriving Repr, DecidableEq

/-- Constructor: `maxEntries: options.maxEntries || 100` and
`defaultTTL: options.defaultTTL || 60000` (JS `||`, so `0` selects the
default), with empty cache, tag index and zeroed statistics. -/
def CacheManager.init (maxEntriesOpt defaultTTLOpt : Option Nat) : CacheManager :=
  { maxEntries := jsOrNat maxEntriesOpt 100
    defaultTTL := jsOrNat defaultTTLOpt 60000
    cache := []
    tagIndex := []
    stats := { hits := 0, misses := 0, evictions := 0, invalidations := 0 } }

/-- Body of the `entry.tags.forEach` cleanup inside `_remove(key)`:
delete `key` from the tag's set and drop the tag once its set is empty. -/
def removeTagStep (key : String) (ti : List (String × List String))
    (tag : String) : List (String × List String) :=
  match jmLookup ti tag with
  | none => ti
  | some tagKeys =>
    let tagKeys' := jsDelete tagKeys key
    if tagKeys' = [] then jmDelete ti tag else jmSet ti tag tagKeys'

/-- `_remove(key)`: clean the tag index for the entry's tags, then delete
the entry from the cache map.  A no-op when the key is absent. -/
def CacheManager._remove (s : CacheManager) (key : String) : CacheManager :=
  match jmLookup s.cache key with
  | none => s
  | some entry =>
    { s with
      tagIndex := entry.tags.foldl (removeTagStep key) s.tagIndex
      cache := jmDelete s.cache key }

/-- `_evictLRU()`: the map iterator gives keys in insertion order, the
first key is the LRU entry; remove it and count an eviction. -/
def CacheManager._evictLRU (s : CacheManager) : CacheManager :=
  match s.cache with
  | [] => s
  | (firstKey, _) :: _ =>
    let s' := s._remove firstKey
    { s' with stats := { s'.stats with evictions := s'.stats.evictions + 1 } }

theorem evictLRU_cache_cons (s : CacheManager) (k : String) (e : CacheEntry)
    (rest : List (String × CacheEntry)) (h : s.cache = (k, e) :: rest) :
    (s._evictLRU).cache = rest := by
  unfold CacheManager._evictLRU
  rw [h]
  simp only [CacheManager._remove, h, jmLookup, if_pos rfl, jmDelete]
  simp

/-- The `while (this.cache.size >= this.maxEntries) this._evictLRU()` loop
inside `set`, rendered with a fuel argument so that it is structurally
recursive (each iteration with a non-empty cache shrinks it by one entry,
so `s.cache.length` iterations always suffice; with `maxEntries = 0` and
an empty cache the source loop spins forever as a no-op, which the fuel
cut-off renders as termination — unreachable for the `maxEntries > 0`
configurations produced by the constructor). -/
def evictLoopFuel : Nat → CacheManager → CacheManager
  | 0, s => s
  | fuel + 1, s =>
    if s.maxEntries ≤ s.cache.length then evictLoopFuel fuel s._evictLRU else s

def CacheManager.evictLoop (s : CacheManager) : CacheManager :=
  evictLoopFuel s.cache.length s

/-- Options object accepted by `set` (all fields optional). -/
structure SetOptions where
  ttl : Option Nat := none
  tags : Option (List String) := none
  etag : Option String := none
deriving Repr, DecidableEq

/-- `options.etag || null` with the empty string falsy. -/
def jsOrEtag (x : Option String) : Option String :=
  match x with
  | some s => if s = "" then none else some s
  | none => none

/-- Body of the `entry.tags.forEach` inside `set`: create the tag's set if
missing, then add the key to it. -/
def addTagStep (key : String) (ti : List (String × List String))
    (tag : String) : List (String × List String) :=
  match jmLookup ti tag with
  | none => jmSet ti tag (jsAdd [] key)
  | some tagKeys => jmSet ti tag (jsAdd tagKeys key)

/-- `set(key, value, options)`: remove any existing entry, evict LRU
entries while at capacity, insert the fresh entry (appended, i.e. most
recently used) and index its tags.  `options.ttl || this.defaultTTL`
and `options.tags || []` follow JS truthiness (an empty array is truthy,
so `tags` only defaults when absent). -/
def CacheManager.set (s : CacheManager) (now : Nat) (key : String)
    (value : JVal) (options : SetOptions) : CacheManager × CacheEntry :=
  let s₁ := if (jmLookup s.cache key).isSome then s._remove key else s
  let s₂ := s₁.evictLoop
  let entry : CacheEntry :=
    { key := key
      value := value
      createdAt := now
      lastAccessedAt := now
      accessCount := 0
      ttl := jsOrNat options.ttl s₂.defaultTTL
      tags := options.tags.getD []
      etag := jsOrEtag options.etag }
  let s₃ := { s₂ with cache := jmSet s₂.cache key entry }
  let s₄ := { s₃ with tagIndex := entry.tags.foldl (addTagStep key) s₃.tagIndex }
  (s₄, entry)

/-- `get(key)`: miss on absence; an expired entry is removed and counted
as a miss; a hit moves the entry to the tail of the map (most recently
used), bumps its access bookkeeping and returns the value.  The absent
sentinel is `null`. -/
def CacheManager.get (s : CacheManager) (now : Nat) (key : String) :
    CacheManager × JVal :=
  match jmLookup s.cache key with
  | none =>
    ({ s with stats := { s.stats with misses := s.stats.misses + 1 } }, .jnull)
  | some entry =>
    if entry.isExpired now then
      let s' := s._remove key
      ({ s' with stats := { s'.stats with misses := s'.stats.misses + 1 } }, .jnull)
    else
      let s' := { s with stats := { s.stats with hits := s.stats.hits + 1 } }
      let entry' := { entry with lastAccessedAt := now
                                 accessCount := entry.accessCount + 1 }
      ({ s' with cache := jmSet (jmDelete s'.cache key) key entry' }, entry'.value)

/-- `has(key)`: true only for a present, non-expired entry; checking an
expired entry removes it as a side effect. -/
def CacheManager.has (s : CacheManager) (now : Nat) (key : String) :
    CacheManager × Bool :=
  match jmLookup s.cache key with
  | none => (s, false)
  | some entry =>
    if entry.isExpired now then (s._remove key, false) else (s, true)

/-- `invalidate(key)`: unconditional removal, always counted. -/
def CacheManager.invalidate (s : CacheManager) (key : String) : CacheManager :=
  let s' := s._remove key
  { s' with stats := { s'.stats with invalidations := s'.stats.invalidations + 1 } }

/-- `invalidateByTag(tag)`: remove every key in the tag's set, drop the
tag from the index, count the removals and return the count.  The source
iterates the live `Set` with `forEach` while `_remove` deletes only the
currently visited key from it, so the iteration visits exactly the
members present when it started; the fold over that snapshot is the same
computation. -/
def CacheManager.invalidateByTag (s : CacheManager) (tag : String) :
    CacheManager × Nat :=
  match jmLookup s.tagIndex tag with
  | none => (s, 0)
  | some keys =>
    let s₁ := keys.foldl (fun acc k => acc._remove k) s
    let count := keys.length
    let s₂ := { s₁ with tagIndex := jmDelete s₁.tagIndex tag }
    ({ s₂ with
        stats := { s₂.stats with
                    invalidations := s₂.stats.invalidations + count } }, count)

/-- `invalidateByPattern(pattern)`: collect the keys matching the regex
(modelled by the predicate `test`, standing for `regex.test`), remove
each, and return the count. -/
def CacheManager.invalidateByPattern (s : CacheManager) (test : String → Bool) :
    CacheManager × Nat :=
  let keysToRemove := (jmKeys s.cache).filter test
  let s₁ := keysToRemove.foldl (fun acc k => acc._remove k) s
  let count := keysToRemove.length
  ({ s₁ with
      stats := { s₁.stats with
                  invalidations := s₁.stats.invalidations + count } }, count)

/-- `getStale(key)`: the raw stored value, ignoring the TTL and without
touching LRU order; `null` when absent. -/
def CacheManager.getStale (s : CacheManager) (key : String) : JVal :=
  match jmLookup s.cache key with
  | none => .jnull
  | some entry => entry.value

/-- One step of an externally driven call sequence against the cache
(the operations the claims range over). -/
inductive CacheOp where
  | setOp (now : Nat) (key : String) (value : JVal) (options : SetOptions)
  | getOp (now : Nat) (key : String)
  | hasOp (now : Nat) (key : String)
  | invalidateOp (key : String)
  | invalidateByTagOp (tag : String)
  | invalidateByPatternOp (test : String → Bool)

def CacheManager.applyOp (s : CacheManager) : CacheOp → CacheManager
  | .setOp now key value options => (s.set now key value options).1
  | .getOp now key => (s.get now key).1
  | .hasOp now key => (s.has now key).1
  | .invalidateOp key => s.invalidate key
  | .invalidateByTagOp tag => (s.invalidateByTag tag).1
  | .invalidateByPatternOp test => (s.invalidateByPattern test).1

def CacheManager.runOps (s : CacheManager) (ops : List CacheOp) : CacheManager :=
  ops.foldl CacheManager.applyOp s

/-!
Well-formedness (the structural facts JS `Map`/`Set` give for free) and
the tag-index/entry-map consistency invariant.
-/

/-- The tag index is a well-formed map of well-formed sets. -/
def TagWF (ti : List (String × List String)) : Prop :=
  (jmKeys ti).Nodup ∧ ∀ p ∈ ti, (p.2 : List String).Nodup

/-- Structural well-formedness of a cache state. -/
def CacheManager.WF (s : CacheManager) : Prop :=
  (jmKeys s.cache).Nodup ∧ TagWF s.tagIndex

/-- Tag-index consistency: a key is listed under a tag exactly when it has
a live entry whose tags contain that tag. -/
def CacheManager.TagInv (s : CacheManager) : Prop :=
  ∀ t k, (∃ ks, jmLookup s.tagIndex t = some ks ∧ k ∈ ks) ↔
         (∃ e, jmLookup s.cache k = some e ∧ t ∈ e.tags)

/-- Value-level effect of `removeTagStep` on the tag being cleaned. -/
def removeTagVal (key : String) : Option (List String) → Option (List String)
  | none => none
  | some ks =>
    let ks' := jsDelete ks key
    if ks' = [] then none else some ks'

/-- Value-level effect of `addTagStep` on the tag being indexed. -/
def addTagVal (key : String) (o : Option (List String)) : Option (List String) :=
  some (jsAdd (o.getD []) key)

section TagStepLemmas

theorem jmDelete_subset {α : Type} (m : List (String × α)) (k : String)
    (p : String × α) (h : p ∈ jmDelete m k) : p ∈ m := by
  induction m with
  | nil => simpa [jmDelete] using h
  | cons q rest ih =>
    obtain ⟨k₀, v₀⟩ := q
    by_cases hk : k₀ = k
    · subst hk
      simp only [jmDelete, if_pos rfl] at h
      exact List.mem_cons_of_mem _ h
    · simp only [jmDelete, if_neg hk, List.mem_cons] at h ⊢
      rcases h with h | h
      · exact Or.inl h
      · exact Or.inr (ih h)

theorem jmSet_mem {α : Type} (m : List (String × α)) (k : String) (v : α)
    (p : String × α) (h : p ∈ jmSet m k v) : p ∈ m ∨ p = (k, v) := by
  induction m with
  | nil =>
    simp only [jmSet, List.mem_singleton] at h
    exact Or.inr h
  | cons q rest ih =>
    obtain ⟨k₀, v₀⟩ := q
    by_cases hk : k₀ = k
    · subst hk
      simp [jmSet] at h
      rcases h with h1 | h1
      · exact Or.inr (by simp [h1])
      · exact Or.inl (List.mem_cons_of_mem _ h1)
    · simp only [jmSet, if_neg hk, List.mem_cons] at h
      rcases h with h1 | h1
      · exact Or.inl (by simp [h1])
      · rcases ih h1 with h2 | h2
        · exact Or.inl (List.mem_cons_of_mem _ h2)
        · exact Or.inr h2

theorem TagWF_lookup_nodup {ti : List (String × List String)} (hwf : TagWF ti)
    {t : String} {ks : List String} (h : jmLookup ti t = some ks) : ks.Nodup :=
  hwf.2 _ (jmLookup_mem ti t ks h)

theorem removeTagStep_lookup (key : String) (ti : List (String × List String))
    (tag : String) (hwf : TagWF ti) (t : String) :
    jmLookup (removeTagStep key ti tag) t =
      if t = tag then removeTagVal key (jmLookup ti tag) else jmLookup ti t := by
  unfold removeTagStep
  rcases h : jmLookup ti tag with _ | ks
  · by_cases ht : t = tag
    · subst ht
      simp [removeTagVal, h]
    · simp [removeTagVal, ht]
  · dsimp only
    by_cases hks : jsDelete ks key = []
    · rw [if_pos hks]
      by_cases ht : t = tag
      · subst ht
        rw [jmLookup_delete_self ti t hwf.1]
        simp [removeTagVal, hks]
      · rw [jmLookup_delete_ne ti ht]
        simp [ht]
  -- the remaining case keeps (jsDelete ks key) as the tag's new set
    · rw [if_neg hks]
      by_cases ht : t = tag
      · subst ht
        rw [jmLookup_set_self]
        simp [removeTagVal, hks]
      · rw [jmLookup_set_ne ti _ ht]
        simp [ht]

theorem removeTagStep_TagWF (key : String) (ti : List (String × List String))
    (tag : String) (hwf : TagWF ti) : TagWF (removeTagStep key ti tag) := by
  unfold removeTagStep
  rcases h : jmLookup ti tag with _ | ks
  · exact hwf
  · dsimp only
    by_cases hks : jsDelete ks key = []
    · rw [if_pos hks]
      exact ⟨jmKeys_delete_nodup _ _ hwf.1,
        fun p hp => hwf.2 p (jmDelete_subset _ _ p hp)⟩
    · rw [if_neg hks]
      refine ⟨jmKeys_set_nodup _ _ _ hwf.1, fun p hp => ?_⟩
      rcases jmSet_mem _ _ _ p hp with hp | hp
      · exact hwf.2 p hp
      · subst hp
        exact jsDelete_nodup ks key (TagWF_lookup_nodup hwf h)

theorem removeTagVal_idem (key : String) (o : Option (List String))
    (hnd : ∀ ks, o = some ks → ks.Nodup) :
    removeTagVal key (removeTagVal key o) = removeTagVal key o := by
  rcases o with _ | ks
  · rfl
  · by_cases hks : jsDelete ks key = []
    · simp [removeTagVal, hks]
    · have hnot : key ∉ jsDelete ks key := jsDelete_not_mem ks key (hnd ks rfl)
      have h1 : removeTagVal key (some ks) = some (jsDelete ks key) := by
        simp [removeTagVal, hks]
      rw [h1]
      have h2 : jsDelete (jsDelete ks key) key = jsDelete ks key :=
        jsDelete_of_not_mem _ _ hnot
      simp [removeTagVal, h2, hks]

theorem foldl_removeTagStep_TagWF (key : String) (tags : List String)
    (ti : List (String × List String)) (hwf : TagWF ti) :
    TagWF (tags.foldl (removeTagStep key) ti) := by
  induction tags generalizing ti with
  | nil => exact hwf
  | cons tag tags ih =>
    exact ih _ (removeTagStep_TagWF key ti tag hwf)

theorem foldl_removeTagStep_lookup (key : String) (tags : List String)
    (ti : List (String × List String)) (hwf : TagWF ti) (t : String) :
    jmLookup (tags.foldl (removeTagStep key) ti) t =
      if t ∈ tags then removeTagVal key (jmLookup ti t) else jmLookup ti t := by
  induction tags generalizing ti with
  | nil => simp
  | cons tag tags ih =>
    have hwf' := removeTagStep_TagWF key ti tag hwf
    simp only [List.foldl_cons]
    rw [ih _ hwf', removeTagStep_lookup key ti tag hwf t]
    by_cases ht : t = tag
    · subst ht
      by_cases hmem : t ∈ tags
      · rw [if_pos hmem, if_pos rfl, if_pos (List.mem_cons_self t tags),
          removeTagVal_idem key _ (fun ks h => TagWF_lookup_nodup hwf h)]
      · rw [if_neg hmem, if_pos rfl, if_pos (List.mem_cons_self t tags)]
    · have hmc : t ∈ tag :: tags ↔ t ∈ tags := by simp [List.mem_cons, ht]
      by_cases hmem : t ∈ tags
      · rw [if_pos hmem, if_neg ht, if_pos (hmc.mpr hmem)]
      · rw [if_neg hmem, if_neg ht, if_neg (fun hc => hmem (hmc.mp hc))]

theorem jsAdd_idem (s : List String) (k : String) :
    jsAdd (jsAdd s k) k = jsAdd s k := by
  have h : k ∈ jsAdd s k := (jsAdd_mem s k k).mpr (Or.inr rfl)
  show (if k ∈ jsAdd s k then jsAdd s k else jsAdd s k ++ [k]) = jsAdd s k
  rw [if_pos h]

theorem addTagStep_lookup (key : String) (ti : List (String × List String))
    (tag : String) (t : String) :
    jmLookup (addTagStep key ti tag) t =
      if t = tag then addTagVal key (jmLookup ti tag) else jmLookup ti t := by
  unfold addTagStep
  rcases h : jmLookup ti tag with _ | ks
  · by_cases ht : t = tag
    · subst ht
      rw [jmLookup_set_self]
      simp [addTagVal, h]
    · rw [jmLookup_set_ne ti _ ht]
      simp [ht]
  · by_cases ht : t = tag
    · subst ht
      rw [jmLookup_set_self]
      simp [addTagVal, h]
    · rw [jmLookup_set_ne ti _ ht]
      simp [ht]

theorem addTagStep_TagWF (key : String) (ti : List (String × List String))
    (tag : String) (hwf : TagWF ti) : TagWF (addTagStep key ti tag) := by
  unfold addTagStep
  rcases h : jmLookup ti tag with _ | ks
  · refine ⟨jmKeys_set_nodup _ _ _ hwf.1, fun p hp => ?_⟩
    rcases jmSet_mem _ _ _ p hp with hp | hp
    · exact hwf.2 p hp
    · subst hp
      exact jsAdd_nodup [] key (by simp)
  · refine ⟨jmKeys_set_nodup _ _ _ hwf.1, fun p hp => ?_⟩
    rcases jmSet_mem _ _ _ p hp with hp | hp
    · exact hwf.2 p hp
    · subst hp
      exact jsAdd_nodup ks key (TagWF_lookup_nodup hwf h)

theorem foldl_addTagStep_TagWF (key : String) (tags : List String)
    (ti : List (String × List String)) (hwf : TagWF ti) :
    TagWF (tags.foldl (addTagStep key) ti) := by
  induction tags generalizing ti with
  | nil => exact hwf
  | cons tag tags ih =>
    exact ih _ (addTagStep_TagWF key ti tag hwf)

theorem foldl_addTagStep_lookup (key : String) (tags : List String)
    (ti : List (String × List String)) (t : String) :
    jmLookup (tags.foldl (addTagStep key) ti) t =
      if t ∈ tags then addTagVal key (jmLookup ti t) else jmLookup ti t := by
  induction tags generalizing ti with
  | nil => simp
  | cons tag tags ih =>
    simp only [List.foldl_cons]
    rw [ih _, addTagStep_lookup key ti tag t]
    by_cases ht : t = tag
    · subst ht
      by_cases hmem : t ∈ tags
      · rw [if_pos hmem, if_pos rfl, if_pos (List.mem_cons_self t tags)]
        simp [addTagVal, jsAdd_idem]
      · rw [if_neg hmem, if_pos rfl, if_pos (List.mem_cons_self t tags)]
    · have hmc : t ∈ tag :: tags ↔ t ∈ tags := by simp [List.mem_cons, ht]
      by_cases hmem : t ∈ tags
      · rw [if_pos hmem, if_neg ht, if_pos (hmc.mpr hmem)]
      · rw [if_neg hmem, if_neg ht, if_neg (fun hc => hmem (hmc.mp hc))]

end TagStepLemmas

section RemoveLemmas

theorem remove_maxEntries (s : CacheManager) (key : String) :
    (s._remove key).maxEntries = s.maxEntries := by
  unfold CacheManager._remove
  rcases jmLookup s.cache key with _ | e <;> rfl

theorem remove_defaultTTL (s : CacheManager) (key : String) :
    (s._remove key).defaultTTL = s.defaultTTL := by
  unfold CacheManager._remove
  rcases jmLookup s.cache key with _ | e <;> rfl

theorem remove_stats (s : CacheManager) (key : String) :
    (s._remove key).stats = s.stats := by
  unfold CacheManager._remove
  rcases jmLookup s.cache key with _ | e <;> rfl

theorem remove_cache_lookup (s : CacheManager) (key : String)
    (hnd : (jmKeys s.cache).Nodup) (k : String) :
    jmLookup (s._remove key).cache k =
      if k = key then none else jmLookup s.cache k := by
  unfold CacheManager._remove
  rcases h : jmLookup s.cache key with _ | e
  · by_cases hk : k = key
    · subst hk
      simp [h]
    · simp [hk]
  · dsimp only
    by_cases hk : k = key
    · subst hk
      rw [if_pos rfl, jmLookup_delete_self s.cache k hnd]
    · rw [if_neg hk, jmLookup_delete_ne s.cache hk]

theorem remove_tagIndex_lookup (s : CacheManager) (key : String)
    (hwf : TagWF s.tagIndex) (e : CacheEntry)
    (h : jmLookup s.cache key = some e) (t : String) :
    jmLookup (s._remove key).tagIndex t =
      if t ∈ e.tags then removeTagVal key (jmLookup s.tagIndex t)
      else jmLookup s.tagIndex t := by
  unfold CacheManager._remove
  rw [h]
  dsimp only
  exact foldl_removeTagStep_lookup key e.tags s.tagIndex hwf t

theorem remove_absent (s : CacheManager) (key : String)
    (h : jmLookup s.cache key = none) : s._remove key = s := by
  unfold CacheManager._remove
  rw [h]

theorem remove_WF (s : CacheManager) (key : String) (hwf : s.WF) :
    (s._remove key).WF := by
  unfold CacheManager._remove
  rcases h : jmLookup s.cache key with _ | e
  · exact hwf
  · exact ⟨jmKeys_delete_nodup _ _ hwf.1,
      foldl_removeTagStep_TagWF key e.tags s.tagIndex hwf.2⟩

theorem remove_cache_length_le (s : CacheManager) (key : String) :
    (s._remove key).cache.length ≤ s.cache.length := by
  unfold CacheManager._remove
  rcases h : jmLookup s.cache key with _ | e
  · exact le_refl _
  · exact jmDelete_length_le s.cache key

theorem remove_TagInv (s : CacheManager) (key : String) (hwf : s.WF)
    (hinv : s.TagInv) : (s._remove key).TagInv := by
  rcases h : jmLookup s.cache key with _ | e
  · rw [remove_absent s key h]
    exact hinv
  · intro t k
    rw [remove_cache_lookup s key hwf.1 k,
      remove_tagIndex_lookup s key hwf.2 e h t]
    by_cases hk : k = key
    · subst hk
      rw [if_pos rfl]
      refine iff_of_false ?_ (by rintro ⟨e', he', _⟩; cases he')
      rintro ⟨ks, hks, hkmem⟩
      by_cases ht : t ∈ e.tags
      · rw [if_pos ht] at hks
        rcases h₀ : jmLookup s.tagIndex t with _ | ks₀
        · rw [h₀] at hks
          simp [removeTagVal] at hks
        · rw [h₀] at hks
          have hnd₀ : ks₀.Nodup := TagWF_lookup_nodup hwf.2 h₀
          by_cases hemp : jsDelete ks₀ k = []
          · simp [removeTagVal, hemp] at hks
          · simp [removeTagVal, hemp] at hks
            rw [← hks] at hkmem
            exact jsDelete_not_mem ks₀ k hnd₀ hkmem
      · rw [if_neg ht] at hks
        obtain ⟨e', he', ht'⟩ := (hinv t k).mp ⟨ks, hks, hkmem⟩
        rw [h] at he'
        obtain rfl : e = e' := by simpa using he'
        exact ht ht'
    · rw [if_neg hk]
      by_cases ht : t ∈ e.tags
      · rw [if_pos ht]
        rcases h₀ : jmLookup s.tagIndex t with _ | ks₀
        · simp only [removeTagVal]
          constructor
          · rintro ⟨ks, hks, _⟩
            exact absurd hks (by simp)
          · rintro ⟨e', he', ht'⟩
            obtain ⟨ks, hks, hkm⟩ := (hinv t k).mpr ⟨e', he', ht'⟩
            rw [h₀] at hks
            exact absurd hks (by simp)
        · have hnd₀ : ks₀.Nodup := TagWF_lookup_nodup hwf.2 h₀
          by_cases hemp : jsDelete ks₀ key = []
          · simp only [removeTagVal, hemp, if_pos rfl]
            constructor
            · rintro ⟨ks, hks, _⟩
              exact absurd hks (by simp)
            · rintro ⟨e', he', ht'⟩
              obtain ⟨ks, hks, hkm⟩ := (hinv t k).mpr ⟨e', he', ht'⟩
              rw [h₀] at hks
              obtain rfl : ks₀ = ks := by simpa using hks
              have : k ∈ jsDelete ks₀ key := (jsDelete_mem_of_ne ks₀ hk).mpr hkm
              rw [hemp] at this
              simp at this
          · simp only [removeTagVal, hemp, if_neg hemp]
            constructor
            · rintro ⟨ks, hks, hkm⟩
              obtain rfl : jsDelete ks₀ key = ks := by simpa using hks
              exact (hinv t k).mp ⟨ks₀, h₀, (jsDelete_mem_of_ne ks₀ hk).mp hkm⟩
            · rintro ⟨e', he', ht'⟩
              obtain ⟨ks, hks, hkm⟩ := (hinv t k).mpr ⟨e', he', ht'⟩
              rw [h₀] at hks
              obtain rfl : ks₀ = ks := by simpa using hks
              exact ⟨jsDelete ks₀ key, rfl, (jsDelete_mem_of_ne ks₀ hk).mpr hkm⟩
      · rw [if_neg ht]
        exact hinv t k

end RemoveLemmas

section EvictLemmas

theorem jmLookup_delete_none {α : Type} (m : List (String × α)) (k k₀ : String)
    (h : jmLookup m k = none) : jmLookup (jmDelete m k₀) k = none := by
  rw [jmLookup_eq_none_iff] at h ⊢
  exact fun hc => h (jmKeys_delete_sub m k₀ k hc)

theorem evictLRU_maxEntries (s : CacheManager) :
    (s._evictLRU).maxEntries = s.maxEntries := by
  unfold CacheManager._evictLRU
  rcases s.cache with _ | ⟨⟨k, e⟩, rest⟩
  · rfl
  · simp [remove_maxEntries]

theorem evictLRU_defaultTTL (s : CacheManager) :
    (s._evictLRU).defaultTTL = s.defaultTTL := by
  unfold CacheManager._evictLRU
  rcases s.cache with _ | ⟨⟨k, e⟩, rest⟩
  · rfl
  · simp [remove_defaultTTL]

theorem evictLRU_WF (s : CacheManager) (h : s.WF) : (s._evictLRU).WF := by
  unfold CacheManager._evictLRU
  rcases s.cache with _ | ⟨⟨k, e⟩, rest⟩
  · exact h
  · exact remove_WF s k h

theorem evictLRU_TagInv (s : CacheManager) (hwf : s.WF) (h : s.TagInv) :
    (s._evictLRU).TagInv := by
  unfold CacheManager._evictLRU
  rcases s.cache with _ | ⟨⟨k, e⟩, rest⟩
  · exact h
  · exact remove_TagInv s k hwf h

theorem evictLRU_cache_of_cons (s : CacheManager) (k : String) (e : CacheEntry)
    (rest : List (String × CacheEntry)) (h : s.cache = (k, e) :: rest) :
    (s._evictLRU).cache = (s._remove k).cache := by
  unfold CacheManager._evictLRU
  rw [h]

theorem remove_cache_lookup_none (s : CacheManager) (key k₀ : String)
    (h : jmLookup s.cache key = none) :
    jmLookup (s._remove k₀).cache key = none := by
  unfold CacheManager._remove
  rcases h₀ : jmLookup s.cache k₀ with _ | e'
  · exact h
  · exact jmLookup_delete_none s.cache key k₀ h

theorem evictLRU_lookup_none (s : CacheManager) (key : String)
    (h : jmLookup s.cache key = none) :
    jmLookup (s._evictLRU).cache key = none := by
  rcases hm : s.cache with _ | ⟨⟨k, e⟩, rest⟩
  · unfold CacheManager._evictLRU
    rw [hm]
    exact h
  · rw [evictLRU_cache_of_cons s k e rest hm]
    exact remove_cache_lookup_none s key k h

theorem evictLRU_length_le (s : CacheManager) :
    (s._evictLRU).cache.length ≤ s.cache.length := by
  rcases hm : s.cache with _ | ⟨⟨k, e⟩, rest⟩
  · unfold CacheManager._evictLRU
    rw [hm]
    simp [hm]
  · rw [evictLRU_cache_of_cons s k e rest hm, ← hm]
    exact remove_cache_length_le s k

theorem evictLoopFuel_preserves (P : CacheManager → Prop)
    (hstep : ∀ s, P s → P s._evictLRU) :
    ∀ (fuel : Nat) (s : CacheManager), P s → P (evictLoopFuel fuel s) := by
  intro fuel
  induction fuel with
  | zero => exact fun s hP => hP
  | succ fuel ih =>
    intro s hP
    rw [evictLoopFuel]
    by_cases hc : s.maxEntries ≤ s.cache.length
    · rw [if_pos hc]
      exact ih _ (hstep s hP)
    · rw [if_neg hc]
      exact hP

theorem evictLoop_preserves (P : CacheManager → Prop)
    (hstep : ∀ s, P s → P s._evictLRU) :
    ∀ (n : Nat) (s : CacheManager), s.cache.length = n → P s → P s.evictLoop := by
  intro n s _ hP
  exact evictLoopFuel_preserves P hstep _ s hP

theorem evictLoopFuel_length :
    ∀ (fuel : Nat) (s : CacheManager), s.cache.length ≤ fuel →
      0 < s.maxEntries →
      (evictLoopFuel fuel s).cache.length < s.maxEntries := by
  intro fuel
  induction fuel with
  | zero =>
    intro s hle hmax
    rw [evictLoopFuel]
    omega
  | succ fuel ih =>
    intro s hle hmax
    rw [evictLoopFuel]
    by_cases hc : s.maxEntries ≤ s.cache.length
    · rw [if_pos hc]
      rcases heq : s.cache with _ | ⟨⟨k, e⟩, rest⟩
      · rw [heq] at hc
        simp at hc
        omega
      · have hlen : (s._evictLRU).cache.length ≤ fuel := by
          rw [evictLRU_cache_cons s k e rest heq]
          rw [heq] at hle
          simp at hle
          omega
        have := ih s._evictLRU hlen (by rwa [evictLRU_maxEntries])
        rwa [evictLRU_maxEntries] at this
    · rw [if_neg hc]
      exact Nat.lt_of_not_le hc

theorem evictLoop_length :
    ∀ (n : Nat) (s : CacheManager), s.cache.length = n → 0 < s.maxEntries →
      (s.evictLoop).cache.length < s.maxEntries := by
  intro n s _ hmax
  exact evictLoopFuel_length s.cache.length s (le_refl _) hmax

theorem evictLoop_maxEntries (s : CacheManager) :
    (s.evictLoop).maxEntries = s.maxEntries :=
  evictLoop_preserves (fun x => x.maxEntries = s.maxEntries)
    (fun x hx => by simpa [evictLRU_maxEntries] using hx) _ s rfl rfl

theorem evictLoop_defaultTTL (s : CacheManager) :
    (s.evictLoop).defaultTTL = s.defaultTTL :=
  evictLoop_preserves (fun x => x.defaultTTL = s.defaultTTL)
    (fun x hx => by simpa [evictLRU_defaultTTL] using hx) _ s rfl rfl

end EvictLemmas

section SetLemmas2

theorem insert_stage_WF (s₂ : CacheManager) (key : String) (entry : CacheEntry)
    (hwf : s₂.WF) :
    CacheManager.WF { s₂ with
        cache := jmSet s₂.cache key entry
        tagIndex := entry.tags.foldl (addTagStep key) s₂.tagIndex } :=
  ⟨jmKeys_set_nodup _ _ _ hwf.1, foldl_addTagStep_TagWF key entry.tags _ hwf.2⟩

theorem insert_stage_TagInv (s₂ : CacheManager) (key : String) (entry : CacheEntry)
    (hwf : s₂.WF) (hinv : s₂.TagInv) (habsent : jmLookup s₂.cache key = none) :
    CacheManager.TagInv { s₂ with
        cache := jmSet s₂.cache key entry
        tagIndex := entry.tags.foldl (addTagStep key) s₂.tagIndex } := by
  intro t k
  dsimp only
  rw [foldl_addTagStep_lookup key entry.tags s₂.tagIndex t]
  rcases eq_or_ne k key with heq | hk
  · subst heq
    rw [jmLookup_set_self]
    by_cases ht : t ∈ entry.tags
    · rw [if_pos ht]
      simp only [addTagVal]
      constructor
      · intro _
        exact ⟨entry, rfl, ht⟩
      · intro _
        exact ⟨jsAdd ((jmLookup s₂.tagIndex t).getD []) k, rfl,
          (jsAdd_mem _ k k).mpr (Or.inr rfl)⟩
    · rw [if_neg ht]
      refine iff_of_false ?_ ?_
      · rintro ⟨ks, hks, hkm⟩
        obtain ⟨e', he', _⟩ := (hinv t k).mp ⟨ks, hks, hkm⟩
        rw [habsent] at he'
        cases he'
      · rintro ⟨e', he', ht'⟩
        obtain rfl : entry = e' := by simpa using he'
        exact ht ht'
  · rw [jmLookup_set_ne _ _ hk]
    by_cases ht : t ∈ entry.tags
    · rw [if_pos ht]
      simp only [addTagVal]
      constructor
      · rintro ⟨ks, hks, hkm⟩
        obtain rfl : jsAdd ((jmLookup s₂.tagIndex t).getD []) key = ks := by
          simpa using hks
        have hkm' : k ∈ (jmLookup s₂.tagIndex t).getD [] := by
          rcases (jsAdd_mem _ key k).mp hkm with hm | hm
          · exact hm
          · exact absurd hm hk
        rcases h₀ : jmLookup s₂.tagIndex t with _ | ks₀
        · rw [h₀] at hkm'
          simp at hkm'
        · rw [h₀] at hkm'
          exact (hinv t k).mp ⟨ks₀, h₀, by simpa using hkm'⟩
      · rintro hr
        obtain ⟨ks₀, h₀, hkm⟩ := (hinv t k).mpr hr
        refine ⟨jsAdd ((jmLookup s₂.tagIndex t).getD []) key, rfl, ?_⟩
        rw [h₀]
        exact (jsAdd_mem _ key k).mpr (Or.inl (by simpa using hkm))
    · rw [if_neg ht]
      exact hinv t k

theorem set_pre_WF_TagInv_absent (s : CacheManager) (key : String)
    (hwf : s.WF) (hinv : s.TagInv) :
    let s₁ := if (jmLookup s.cache key).isSome then s._remove key else s
    (s₁.WF ∧ s₁.TagInv) ∧ jmLookup s₁.cache key = none := by
  by_cases hs : (jmLookup s.cache key).isSome
  · simp only [if_pos hs]
    refine ⟨⟨remove_WF s key hwf, remove_TagInv s key hwf hinv⟩, ?_⟩
    rw [remove_cache_lookup s key hwf.1 key, if_pos rfl]
  · simp only [if_neg hs]
    exact ⟨⟨hwf, hinv⟩, Option.not_isSome_iff_eq_none.mp hs⟩

/-- The result state of `set`, written out stage by stage (definitional). -/
theorem set_unfold (s : CacheManager) (now : Nat) (key : String) (value : JVal)
    (opts : SetOptions) :
    (s.set now key value opts).1 =
      (let s₂ := (if (jmLookup s.cache key).isSome then s._remove key else s).evictLoop
       let entry : CacheEntry :=
        { key := key
          value := value
          createdAt := now
          lastAccessedAt := now
          accessCount := 0
          ttl := jsOrNat opts.ttl s₂.defaultTTL
          tags := opts.tags.getD []
          etag := jsOrEtag opts.etag }
       { s₂ with
          cache := jmSet s₂.cache key entry
          tagIndex := entry.tags.foldl (addTagStep key) s₂.tagIndex }) := rfl

theorem set_WF_TagInv (s : CacheManager) (now : Nat) (key : String)
    (value : JVal) (opts : SetOptions) (hwf : s.WF) (hinv : s.TagInv) :
    ((s.set now key value opts).1).WF ∧ ((s.set now key value opts).1).TagInv := by
  have h₁ := set_pre_WF_TagInv_absent s key hwf hinv
  have h₂ := evictLoop_preserves
    (fun x => (x.WF ∧ x.TagInv) ∧ jmLookup x.cache key = none)
    (fun x hx => ⟨⟨evictLRU_WF x hx.1.1, evictLRU_TagInv x hx.1.1 hx.1.2⟩,
      evictLRU_lookup_none x key hx.2⟩)
    _ _ rfl h₁
  rw [set_unfold]
  exact ⟨insert_stage_WF _ key _ h₂.1.1,
    insert_stage_TagInv _ key _ h₂.1.1 h₂.1.2 h₂.2⟩

theorem length_le_of_insert (s₂ : CacheManager) (key : String)
    (entry : CacheEntry) (M : Nat) (h : s₂.cache.length < M) :
    (jmSet s₂.cache key entry).length ≤ M := by
  rw [jmSet_length]
  split
  · omega
  · omega

theorem set_length (s : CacheManager) (now : Nat) (key : String) (value : JVal)
    (opts : SetOptions) (hmax : 0 < s.maxEntries) :
    ((s.set now key value opts).1).cache.length ≤ s.maxEntries := by
  have hm₁ : (if (jmLookup s.cache key).isSome then s._remove key else s).maxEntries
      = s.maxEntries := by
    split
    · exact remove_maxEntries s key
    · rfl
  have hlen₂ := evictLoop_length _
    (if (jmLookup s.cache key).isSome then s._remove key else s) rfl
    (by rw [hm₁]; exact hmax)
  rw [hm₁] at hlen₂
  rw [set_unfold]
  exact length_le_of_insert _ key _ s.maxEntries hlen₂

theorem set_maxEntries (s : CacheManager) (now : Nat) (key : String)
    (value : JVal) (opts : SetOptions) :
    ((s.set now key value opts).1).maxEntries = s.maxEntries := by
  show (if (jmLookup s.cache key).isSome then s._remove key else s).evictLoop.maxEntries
      = s.maxEntries
  rw [evictLoop_maxEntries]
  split
  · exact remove_maxEntries s key
  · rfl

end SetLemmas2

section OpLemmas

/-- Conjunction of the structural invariants the operations preserve. -/
def CacheManager.Inv (s : CacheManager) : Prop := s.WF ∧ s.TagInv

theorem jmLookup_of_mem_nodup {α : Type} (m : List (String × α))
    (hnd : (jmKeys m).Nodup) (k : String) (v : α) (h : (k, v) ∈ m) :
    jmLookup m k = some v := by
  induction m with
  | nil => simp at h
  | cons p rest ih =>
    obtain ⟨k₀, v₀⟩ := p
    obtain ⟨h1, h2⟩ := List.nodup_cons.mp hnd
    rcases List.mem_cons.mp h with h3 | h3
    · have hk : k = k₀ := congrArg Prod.fst h3
      have hv : v = v₀ := congrArg Prod.snd h3
      subst hk
      subst hv
      simp [jmLookup]
    · have hk : ¬ k₀ = k := by
        intro he
        subst he
        exact h1 (by simpa [jmKeys] using List.mem_map_of_mem Prod.fst h3)
      rw [jmLookup, if_neg hk]
      exact ih h2 h3

theorem init_Inv (a b : Option Nat) : (CacheManager.init a b).Inv := by
  refine ⟨⟨by simp [CacheManager.init, jmKeys], by simp [TagWF, CacheManager.init, jmKeys]⟩, ?_⟩
  intro t k
  simp [CacheManager.init, jmLookup]

theorem set_Inv (s : CacheManager) (now : Nat) (key : String) (value : JVal)
    (opts : SetOptions) (h : s.Inv) : ((s.set now key value opts).1).Inv := by
  obtain ⟨hwf, hinv⟩ := h
  exact set_WF_TagInv s now key value opts hwf hinv

theorem get_Inv (s : CacheManager) (now : Nat) (key : String) (h : s.Inv) :
    ((s.get now key).1).Inv := by
  obtain ⟨hwf, hinv⟩ := h
  unfold CacheManager.get
  rcases hl : jmLookup s.cache key with _ | entry
  · exact ⟨⟨hwf.1, hwf.2⟩, hinv⟩
  · dsimp only
    by_cases hex : entry.isExpired now
    · rw [if_pos hex]
      exact ⟨remove_WF s key hwf, remove_TagInv s key hwf hinv⟩
    · rw [if_neg hex]
      refine ⟨⟨jmKeys_set_nodup _ _ _ (jmKeys_delete_nodup _ _ hwf.1), hwf.2⟩, ?_⟩
      intro t k
      dsimp only
      rcases eq_or_ne k key with heq | hk
      · subst heq
        rw [jmLookup_set_self]
        have hbase := hinv t k
        rw [hl] at hbase
        rw [hbase]
        constructor
        · rintro ⟨e', he', ht'⟩
          obtain rfl : entry = e' := by simpa using he'
          exact ⟨_, rfl, ht'⟩
        · rintro ⟨e', he', ht'⟩
          obtain rfl : _ = e' := by simpa using he'
          exact ⟨entry, rfl, ht'⟩
      · rw [jmLookup_set_ne _ _ hk, jmLookup_delete_ne _ hk]
        exact hinv t k

theorem get_length_le (s : CacheManager) (now : Nat) (key : String)
    (hnd : (jmKeys s.cache).Nodup) :
    ((s.get now key).1).cache.length ≤ s.cache.length := by
  unfold CacheManager.get
  rcases hl : jmLookup s.cache key with _ | entry
  · exact le_refl _
  · dsimp only
    by_cases hex : entry.isExpired now
    · rw [if_pos hex]
      exact remove_cache_length_le s key
    · rw [if_neg hex]
      dsimp only
      have hmem : key ∈ jmKeys s.cache := by
        rw [← jmLookup_isSome_iff, hl]
        rfl
      have hdel : key ∉ jmKeys (jmDelete s.cache key) := by
        rw [← jmLookup_eq_none_iff]
        exact jmLookup_delete_self _ _ hnd
      rw [jmSet_length, if_neg hdel, ← jmDelete_length_of_mem s.cache key hmem]

theorem get_maxEntries (s : CacheManager) (now : Nat) (key : String) :
    ((s.get now key).1).maxEntries = s.maxEntries := by
  unfold CacheManager.get
  rcases hl : jmLookup s.cache key with _ | entry
  · rfl
  · dsimp only
    by_cases hex : entry.isExpired now
    · rw [if_pos hex]
      dsimp only
      rw [remove_maxEntries]
    · rw [if_neg hex]

theorem has_Inv (s : CacheManager) (now : Nat) (key : String) (h : s.Inv) :
    ((s.has now key).1).Inv := by
  obtain ⟨hwf, hinv⟩ := h
  unfold CacheManager.has
  rcases hl : jmLookup s.cache key with _ | entry
  · exact ⟨hwf, hinv⟩
  · dsimp only
    by_cases hex : entry.isExpired now
    · rw [if_pos hex]
      exact ⟨remove_WF s key hwf, remove_TagInv s key hwf hinv⟩
    · rw [if_neg hex]
      exact ⟨hwf, hinv⟩

theorem has_length_le (s : CacheManager) (now : Nat) (key : String) :
    ((s.has now key).1).cache.length ≤ s.cache.length := by
  unfold CacheManager.has
  rcases hl : jmLookup s.cache key with _ | entry
  · exact le_refl _
  · dsimp only
    by_cases hex : entry.isExpired now
    · rw [if_pos hex]
      exact remove_cache_length_le s key
    · rw [if_neg hex]

theorem has_maxEntries (s : CacheManager) (now : Nat) (key : String) :
    ((s.has now key).1).maxEntries = s.maxEntries := by
  unfold CacheManager.has
  rcases hl : jmLookup s.cache key with _ | entry
  · rfl
  · dsimp only
    by_cases hex : entry.isExpired now
    · rw [if_pos hex]
      exact remove_maxEntries s key
    · rw [if_neg hex]

theorem invalidate_Inv (s : CacheManager) (key : String) (h : s.Inv) :
    (s.invalidate key).Inv := by
  obtain ⟨hwf, hinv⟩ := h
  have h1 := remove_WF s key hwf
  have h2 := remove_TagInv s key hwf hinv
  exact ⟨⟨h1.1, h1.2⟩, fun t k => h2 t k⟩

theorem invalidate_length_le (s : CacheManager) (key : String) :
    (s.invalidate key).cache.length ≤ s.cache.length :=
  remove_cache_length_le s key

theorem invalidate_maxEntries (s : CacheManager) (key : String) :
    (s.invalidate key).maxEntries = s.maxEntries := by
  show (s._remove key).maxEntries = s.maxEntries
  exact remove_maxEntries s key

theorem foldl_remove_Inv (ks : List String) (s : CacheManager) (h : s.Inv) :
    (ks.foldl (fun acc k => acc._remove k) s).Inv := by
  induction ks generalizing s with
  | nil => exact h
  | cons k ks ih =>
    exact ih _ ⟨remove_WF s k h.1, remove_TagInv s k h.1 h.2⟩

theorem foldl_remove_length_le (ks : List String) (s : CacheManager) :
    (ks.foldl (fun acc k => acc._remove k) s).cache.length ≤ s.cache.length := by
  induction ks generalizing s with
  | nil => exact le_refl _
  | cons k ks ih =>
    exact le_trans (ih _) (remove_cache_length_le s k)

theorem foldl_remove_maxEntries (ks : List String) (s : CacheManager) :
    (ks.foldl (fun acc k => acc._remove k) s).maxEntries = s.maxEntries := by
  induction ks generalizing s with
  | nil => rfl
  | cons k ks ih =>
    rw [List.foldl_cons, ih, remove_maxEntries]

theorem foldl_remove_cache_lookup (ks : List String) (s : CacheManager)
    (hwf : s.WF) (k : String) :
    jmLookup ((ks.foldl (fun acc k => acc._remove k) s)).cache k =
      if k ∈ ks then none else jmLookup s.cache k := by
  induction ks generalizing s with
  | nil => simp
  | cons k₀ ks ih =>
    rw [List.foldl_cons, ih _ (remove_WF s k₀ hwf)]
    rcases eq_or_ne k k₀ with heq | hk
    · subst heq
      by_cases hmem : k ∈ ks
      · rw [if_pos hmem, if_pos (List.mem_cons_self k ks)]
      · rw [if_neg hmem, if_pos (List.mem_cons_self k ks),
          remove_cache_lookup s k hwf.1 k, if_pos rfl]
    · have hmc : k ∈ k₀ :: ks ↔ k ∈ ks := by simp [List.mem_cons, hk]
      by_cases hmem : k ∈ ks
      · rw [if_pos hmem, if_pos (hmc.mpr hmem)]
      · rw [if_neg hmem, if_neg (fun hc => hmem (hmc.mp hc)),
          remove_cache_lookup s k₀ hwf.1 k, if_neg hk]

theorem invalidateByTag_maxEntries (s : CacheManager) (tag : String) :
    ((s.invalidateByTag tag).1).maxEntries = s.maxEntries := by
  unfold CacheManager.invalidateByTag
  rcases hti : jmLookup s.tagIndex tag with _ | ks
  · rfl
  · dsimp only
    exact foldl_remove_maxEntries ks s

theorem invalidateByTag_length_le (s : CacheManager) (tag : String) :
    ((s.invalidateByTag tag).1).cache.length ≤ s.cache.length := by
  unfold CacheManager.invalidateByTag
  rcases hti : jmLookup s.tagIndex tag with _ | ks
  · exact le_refl _
  · dsimp only
    exact foldl_remove_length_le ks s

theorem invalidateByTag_memIff (s : CacheManager) (tag : String)
    (hinv : s.TagInv) (ks : List String)
    (hti : jmLookup s.tagIndex tag = some ks) (k : String) :
    k ∈ ks ↔ ∃ e, jmLookup s.cache k = some e ∧ tag ∈ e.tags := by
  have := hinv tag k
  rw [hti] at this
  rw [← this]
  constructor
  · intro hk
    exact ⟨ks, rfl, hk⟩
  · rintro ⟨ks', hks', hk⟩
    obtain rfl : ks = ks' := by simpa using hks'
    exact hk

theorem invalidateByTag_Inv (s : CacheManager) (tag : String) (h : s.Inv) :
    ((s.invalidateByTag tag).1).Inv := by
  unfold CacheManager.invalidateByTag
  rcases hti : jmLookup s.tagIndex tag with _ | ks
  · exact h
  · dsimp only
    have h₁ := foldl_remove_Inv ks s h
    have hlook := foldl_remove_cache_lookup ks s h.1
    refine ⟨⟨h₁.1.1, jmKeys_delete_nodup _ _ h₁.1.2.1,
      fun p hp => h₁.1.2.2 p (jmDelete_subset _ _ p hp)⟩, ?_⟩
    intro t k
    dsimp only
    rcases eq_or_ne t tag with heq | ht
    · subst heq
      rw [jmLookup_delete_self _ _ h₁.1.2.1]
      refine iff_of_false (by rintro ⟨ks', hks', _⟩; cases hks') ?_
      rintro ⟨e, he, hte⟩
      rw [hlook k] at he
      by_cases hmem : k ∈ ks
      · rw [if_pos hmem] at he
        cases he
      · rw [if_neg hmem] at he
        exact hmem ((invalidateByTag_memIff s t h.2 ks hti k).mpr ⟨e, he, hte⟩)
    · rw [jmLookup_delete_ne _ ht]
      exact h₁.2 t k

theorem invalidateByTag_cache_lookup (s : CacheManager) (tag : String)
    (h : s.Inv) (k : String) :
    (∀ e, jmLookup s.cache k = some e →
      jmLookup ((s.invalidateByTag tag).1).cache k =
        if tag ∈ e.tags then none else some e) ∧
    (jmLookup s.cache k = none →
      jmLookup ((s.invalidateByTag tag).1).cache k = none) := by
  unfold CacheManager.invalidateByTag
  rcases hti : jmLookup s.tagIndex tag with _ | ks
  · constructor
    · intro e he
      have hnot : tag ∉ e.tags := by
        intro hte
        obtain ⟨ks', hks', _⟩ := (h.2 tag k).mpr ⟨e, he, hte⟩
        rw [hti] at hks'
        cases hks'
      rw [if_neg hnot]
      exact he
    · intro he
      exact he
  · dsimp only
    have hlook := foldl_remove_cache_lookup ks s h.1 k
    constructor
    · intro e he
      by_cases hte : tag ∈ e.tags
      · rw [if_pos hte, hlook,
          if_pos ((invalidateByTag_memIff s tag h.2 ks hti k).mpr ⟨e, he, hte⟩)]
      · have hmem : k ∉ ks := by
          intro hk
          obtain ⟨e', he', hte'⟩ := (invalidateByTag_memIff s tag h.2 ks hti k).mp hk
          rw [he] at he'
          obtain rfl : e = e' := by simpa using he'
          exact hte hte'
        rw [if_neg hte, hlook, if_neg hmem]
        exact he
    · intro he
      have hmem : k ∉ ks := by
        intro hk
        obtain ⟨e', he', _⟩ := (invalidateByTag_memIff s tag h.2 ks hti k).mp hk
        rw [he] at he'
        cases he'
      rw [hlook, if_neg hmem]
      exact he

theorem invalidateByTag_count (s : CacheManager) (tag : String) (h : s.Inv) :
    (s.invalidateByTag tag).2 =
      (s.cache.filter (fun p => tag ∈ p.2.tags)).length := by
  unfold CacheManager.invalidateByTag
  rcases hti : jmLookup s.tagIndex tag with _ | ks
  · dsimp only
    rw [List.filter_eq_nil_iff.mpr ?_]
    · rfl
    · rintro ⟨k, e⟩ hp
      simp only [decide_eq_true_eq]
      intro hte
      have hlk := jmLookup_of_mem_nodup s.cache h.1.1 k e hp
      obtain ⟨ks', hks', _⟩ := (h.2 tag k).mpr ⟨e, hlk, hte⟩
      rw [hti] at hks'
      cases hks'
  · dsimp only
    have hksnd : ks.Nodup := TagWF_lookup_nodup h.1.2 hti
    have hfnd : (jmKeys (s.cache.filter (fun p => tag ∈ p.2.tags))).Nodup := by
      unfold jmKeys
      exact (List.Sublist.map Prod.fst (List.filter_sublist s.cache)).nodup h.1.1
    have hmemiff : ∀ k, k ∈ ks ↔
        k ∈ jmKeys (s.cache.filter (fun p => tag ∈ p.2.tags)) := by
      intro k
      rw [invalidateByTag_memIff s tag h.2 ks hti k]
      constructor
      · rintro ⟨e, he, hte⟩
        unfold jmKeys
        refine List.mem_map.mpr ⟨(k, e), ?_, rfl⟩
        rw [List.mem_filter]
        exact ⟨jmLookup_mem s.cache k e he, by simpa using hte⟩
      · intro hk
        unfold jmKeys at hk
        obtain ⟨⟨k', e⟩, hpe, hfst⟩ := List.mem_map.mp hk
        obtain rfl : k = k' := hfst.symm
        rw [List.mem_filter] at hpe
        exact ⟨e, jmLookup_of_mem_nodup s.cache h.1.1 k e hpe.1,
          by simpa using hpe.2⟩
    have hperm : ks.Perm (jmKeys (s.cache.filter (fun p => tag ∈ p.2.tags))) := by
      refine List.perm_of_nodup_nodup_toFinset_eq hksnd hfnd ?_
      ext x
      simp only [List.mem_toFinset]
      exact hmemiff x
    have : (jmKeys (s.cache.filter (fun p => tag ∈ p.2.tags))).length
        = (s.cache.filter (fun p => tag ∈ p.2.tags)).length := by
      unfold jmKeys
      exact List.length_map _ _
    rw [← this]
    exact hperm.length_eq

theorem invalidateByPattern_Inv (s : CacheManager) (test : String → Bool)
    (h : s.Inv) : ((s.invalidateByPattern test).1).Inv :=
  foldl_remove_Inv _ s h

theorem invalidateByPattern_length_le (s : CacheManager) (test : String → Bool) :
    ((s.invalidateByPattern test).1).cache.length ≤ s.cache.length :=
  foldl_remove_length_le _ s

theorem invalidateByPattern_maxEntries (s : CacheManager) (test : String → Bool) :
    ((s.invalidateByPattern test).1).maxEntries = s.maxEntries :=
  foldl_remove_maxEntries _ s

theorem applyOp_Inv (s : CacheManager) (op : CacheOp) (h : s.Inv) :
    (s.applyOp op).Inv := by
  cases op with
  | setOp now key value options => exact set_Inv s now key value options h
  | getOp now key => exact get_Inv s now key h
  | hasOp now key => exact has_Inv s now key h
  | invalidateOp key => exact invalidate_Inv s key h
  | invalidateByTagOp tag => exact invalidateByTag_Inv s tag h
  | invalidateByPatternOp test => exact invalidateByPattern_Inv s test h

theorem applyOp_maxEntries (s : CacheManager) (op : CacheOp) :
    (s.applyOp op).maxEntries = s.maxEntries := by
  cases op with
  | setOp now key value options => exact set_maxEntries s now key value options
  | getOp now key => exact get_maxEntries s now key
  | hasOp now key => exact has_maxEntries s now key
  | invalidateOp key => exact invalidate_maxEntries s key
  | invalidateByTagOp tag => exact invalidateByTag_maxEntries s tag
  | invalidateByPatternOp test => exact invalidateByPattern_maxEntries s test

theorem applyOp_length (s : CacheManager) (op : CacheOp)
    (hmax : 0 < s.maxEntries) (h : s.Inv)
    (hlen : s.cache.length ≤ s.maxEntries) :
    (s.applyOp op).cache.length ≤ s.maxEntries := by
  cases op with
  | setOp now key value options => exact set_length s now key value options hmax
  | getOp now key => exact le_trans (get_length_le s now key h.1.1) hlen
  | hasOp now key => exact le_trans (has_length_le s now key) hlen
  | invalidateOp key => exact le_trans (invalidate_length_le s key) hlen
  | invalidateByTagOp tag => exact le_trans (invalidateByTag_length_le s tag) hlen
  | invalidateByPatternOp test =>
    exact le_trans (invalidateByPattern_length_le s test) hlen

theorem runOps_Inv (ops : List CacheOp) (s : CacheManager) (h : s.Inv) :
    (s.runOps ops).Inv := by
  induction ops generalizing s with
  | nil => exact h
  | cons op ops ih => exact ih _ (applyOp_Inv s op h)

theorem runOps_maxEntries (ops : List CacheOp) (s : CacheManager) :
    (s.runOps ops).maxEntries = s.maxEntries := by
  induction ops generalizing s with
  | nil => rfl
  | cons op ops ih =>
    show ((s.applyOp op).runOps ops).maxEntries = s.maxEntries
    rw [ih _, applyOp_maxEntries]

theorem runOps_length (ops : List CacheOp) (s : CacheManager)
    (hmax : 0 < s.maxEntries) (h : s.Inv)
    (hlen : s.cache.length ≤ s.maxEntries) :
    (s.runOps ops).cache.length ≤ (s.runOps ops).maxEntries := by
  induction ops generalizing s with
  | nil => exact hlen
  | cons op ops ih =>
    show ((s.applyOp op).runOps ops).cache.length ≤ _
    exact ih _ (by rw [applyOp_maxEntries]; exact hmax) (applyOp_Inv s op h)
      (by rw [applyOp_maxEntries]; exact applyOp_length s op hmax h hlen)

end OpLemmas

section CacheClaims

theorem jsOrNat_pos (n d : Nat) (h : 0 < n) : jsOrNat (some n) d = n := by
  unfold jsOrNat
  dsimp only
  rw [if_neg (Nat.pos_iff_ne_zero.mp h)]

theorem init_maxEntries (maxE dTTL : Nat) (h : 0 < maxE) :
    (CacheManager.init (some maxE) (some dTTL)).maxEntries = maxE :=
  jsOrNat_pos maxE 100 h

theorem evictLoop_id (s : CacheManager) (h : s.cache.length < s.maxEntries) :
    s.evictLoop = s := by
  unfold CacheManager.evictLoop
  rcases hn : s.cache.length with _ | n
  · rfl
  · rw [evictLoopFuel, if_neg (by omega)]

/-- C1: for a cache constructed with `maxEntries > 0`, any sequence of
`set`/`get` (and the other public) calls keeps the number of stored
entries at or below `maxEntries` at every step; an entry written more
than its TTL ago makes `get` return the absent sentinel `null`; and the
capacity eviction inside `set` removes the head of the insertion-ordered
map, i.e. the least-recently-used entry (repeatedly, via the eviction
loop, until below capacity). -/
theorem C1_lru_ttl_invariant (maxE dTTL : Nat) (hmax : 0 < maxE)
    (ops : List CacheOp) :
    (∀ l₁ l₂ : List CacheOp, ops = l₁ ++ l₂ →
      ((CacheManager.init (some maxE) (some dTTL)).runOps l₁).cache.length ≤ maxE)
    ∧ (∀ (k : String) (e : CacheEntry) (now : Nat),
        jmLookup ((CacheManager.init (some maxE) (some dTTL)).runOps ops).cache k
          = some e →
        e.ttl < now - e.createdAt →
        (((CacheManager.init (some maxE) (some dTTL)).runOps ops).get now k).2
          = JVal.jnull)
    ∧ (∀ (s : CacheManager) (k : String) (e : CacheEntry)
        (rest : List (String × CacheEntry)), s.cache = (k, e) :: rest →
        (s._evictLRU).cache = rest) := by
  have hm := init_maxEntries maxE dTTL hmax
  refine ⟨?_, ?_, ?_⟩
  · intro l₁ l₂ _
    have h := runOps_length l₁ (CacheManager.init (some maxE) (some dTTL))
      (by rw [hm]; exact hmax) (init_Inv _ _) (by simp [CacheManager.init])
    rw [runOps_maxEntries, hm] at h
    exact h
  · intro k e now hsome hexp
    unfold CacheManager.get
    rw [hsome]
    dsimp only
    rw [if_pos (by simp only [CacheEntry.isExpired, decide_eq_true_eq]; exact hexp)]
  · intro s k e rest h
    exact evictLRU_cache_cons s k e rest h

/-- Witness for C1: three inserts into a cache of capacity 2 leave at most
2 entries. -/
theorem C1_lru_ttl_invariant_witness :
    0 < 2 ∧
    ((CacheManager.init (some 2) (some 100)).runOps
      [CacheOp.setOp 0 "a" (JVal.jnum 1) {},
       CacheOp.setOp 1 "b" (JVal.jnum 2) {},
       CacheOp.setOp 2 "c" (JVal.jnum 3) {}]).cache.length ≤ 2 :=
  ⟨by decide,
    (C1_lru_ttl_invariant 2 100 (by decide)
      [CacheOp.setOp 0 "a" (JVal.jnum 1) {},
       CacheOp.setOp 1 "b" (JVal.jnum 2) {},
       CacheOp.setOp 2 "c" (JVal.jnum 3) {}]).1
      [CacheOp.setOp 0 "a" (JVal.jnum 1) {},
       CacheOp.setOp 1 "b" (JVal.jnum 2) {},
       CacheOp.setOp 2 "c" (JVal.jnum 3) {}] []
      (List.append_nil _).symm⟩

/-- C6: after any sequence of public cache calls the tag index is
consistent with the entry map in both directions, and `invalidateByTag`
removes exactly the entries whose tags contain the tag, leaves every
other entry in place, and returns the number of entries removed. -/
theorem C6_tag_index_consistency (a b : Option Nat) (ops : List CacheOp) :
    ((CacheManager.init a b).runOps ops).TagInv
    ∧ (∀ tag : String,
        ((((CacheManager.init a b).runOps ops)).invalidateByTag tag).2 =
          (((CacheManager.init a b).runOps ops).cache.filter
            (fun p => tag ∈ p.2.tags)).length
        ∧ (∀ (k : String) (e : CacheEntry),
            jmLookup ((CacheManager.init a b).runOps ops).cache k = some e →
            jmLookup (((((CacheManager.init a b).runOps ops)).invalidateByTag
                tag).1).cache k = if tag ∈ e.tags then none else some e)
        ∧ (∀ k : String,
            jmLookup ((CacheManager.init a b).runOps ops).cache k = none →
            jmLookup (((((CacheManager.init a b).runOps ops)).invalidateByTag
                tag).1).cache k = none)) := by
  have hInv := runOps_Inv ops (CacheManager.init a b) (init_Inv a b)
  refine ⟨hInv.2, fun tag => ⟨invalidateByTag_count _ tag hInv, fun k e he =>
    (invalidateByTag_cache_lookup _ tag hInv k).1 e he, fun k he =>
    (invalidateByTag_cache_lookup _ tag hInv k).2 he⟩⟩

/-- Witness for C6: one tagged insert, then invalidating its tag removes
it and reports one removal. -/
theorem C6_tag_index_consistency_witness :
    ((((CacheManager.init (some 5) none).runOps
      [CacheOp.setOp 0 "x" (JVal.jnum 7)
        { ttl := none, tags := some ["t"], etag := none }]).invalidateByTag
      "t").2) =
      (((CacheManager.init (some 5) none).runOps
        [CacheOp.setOp 0 "x" (JVal.jnum 7)
          { ttl := none, tags := some ["t"], etag := none }]).cache.filter
        (fun p => "t" ∈ p.2.tags)).length :=
  ((C6_tag_index_consistency (some 5) none
    [CacheOp.setOp 0 "x" (JVal.jnum 7)
      { ttl := none, tags := some ["t"], etag := none }]).2 "t").1

/-- C10: a `set` on a key that is already present (even with the cache at
capacity) removes the old entry first, so the capacity-eviction loop
never runs: no other key is evicted, the eviction statistic is unchanged,
the key maps to the freshly written entry, and the entry count is
unchanged. -/
theorem C10_set_update_frame (s : CacheManager) (now : Nat) (key : String)
    (value : JVal) (opts : SetOptions) (e₀ : CacheEntry)
    (hnd : (jmKeys s.cache).Nodup)
    (hsome : jmLookup s.cache key = some e₀)
    (hlen : s.cache.length ≤ s.maxEntries) :
    ((s.set now key value opts).1).stats.evictions = s.stats.evictions
    ∧ (∀ k' : String, k' ≠ key →
        jmLookup ((s.set now key value opts).1).cache k' = jmLookup s.cache k')
    ∧ (∃ eNew : CacheEntry,
        jmLookup ((s.set now key value opts).1).cache key = some eNew
        ∧ eNew.value = value ∧ eNew.createdAt = now)
    ∧ ((s.set now key value opts).1).cache.length = s.cache.length := by
  have hmem : key ∈ jmKeys s.cache := by
    rw [← jmLookup_isSome_iff, hsome]
    rfl
  have hlenpos : 1 ≤ s.cache.length := by
    rcases hc : s.cache with _ | p
    · rw [hc] at hsome
      cases hsome
    · simp [hc]
  have hsome' : (jmLookup s.cache key).isSome := by
    rw [hsome]
    rfl
  have hdlen : (jmDelete s.cache key).length + 1 = s.cache.length :=
    jmDelete_length_of_mem s.cache key hmem
  have hremlen : (s._remove key).cache.length + 1 = s.cache.length := by
    unfold CacheManager._remove
    rw [hsome]
    exact hdlen
  have hloop : ((s._remove key).evictLoop) = s._remove key := by
    refine evictLoop_id _ ?_
    rw [remove_maxEntries]
    omega
  have hstage : (if (jmLookup s.cache key).isSome then s._remove key else s)
      = s._remove key := if_pos hsome'
  have habsent : jmLookup (s._remove key).cache key = none := by
    rw [remove_cache_lookup s key hnd key, if_pos rfl]
  rw [set_unfold]
  dsimp only
  rw [hstage, hloop]
  refine ⟨?_, ?_, ?_, ?_⟩
  · rw [remove_stats]
  · intro k' hk'
    rw [jmLookup_set_ne _ _ hk', remove_cache_lookup s key hnd k', if_neg hk']
  · exact ⟨_, jmLookup_set_self _ _ _, rfl, rfl⟩
  · rw [jmSet_length, if_neg (by rw [← jmLookup_eq_none_iff]; exact habsent)]
    exact hremlen

/-- Witness for C10: updating the key `a` in a full two-entry cache
evicts nothing. -/
theorem C10_set_update_frame_witness :
    (jmKeys (((CacheManager.init (some 2) none).runOps
      [CacheOp.setOp 0 "a" (JVal.jnum 1) {},
       CacheOp.setOp 1 "b" (JVal.jnum 2) {}]).cache)).Nodup ∧
    ((((CacheManager.init (some 2) none).runOps
      [CacheOp.setOp 0 "a" (JVal.jnum 1) {},
       CacheOp.setOp 1 "b" (JVal.jnum 2) {}]).set 2 "a" (JVal.jnum 9)
        {}).1).stats.evictions =
      (((CacheManager.init (some 2) none).runOps
        [CacheOp.setOp 0 "a" (JVal.jnum 1) {},
         CacheOp.setOp 1 "b" (JVal.jnum 2) {}]).stats).evictions := by
  refine ⟨by decide, ?_⟩
  exact (C10_set_update_frame _ 2 "a" (JVal.jnum 9) {}
    { key := "a"
      value := JVal.jnum 1
      createdAt := 0
      lastAccessedAt := 0
      accessCount := 0
      ttl := 60000
      tags := []
      etag := none }
    (by decide) (by decide) (by decide)).1

end CacheClaims

/-!
Cache strategies (`cacheStrategies.js`).  A strategy is driven by the
eventual outcome of the fetch function, passed in as a settled
`Except JVal JVal` (the value a resolved promise carries, or the value a
rejected promise carries — JS rejections can be any value).  The result
models the promise the strategy hands back, after the revalidation has
settled; the `onRevalidated`/`onRevalidateError` callback invocations are
not tracked.
-/

/-- The result object a strategy resolves with.  `revalidating` records
whether a live revalidation promise handle is attached (`true`) or the
field is `null` (`false`). -/
structure SWRResult where
  data : JVal
  source : String
  stale : Bool
  revalidating : Bool
deriving Repr, DecidableEq

/-- The substitute error built by
`new Error('Network request failed and no cached data available')`. -/
def swrGenericError : JVal :=
  JVal.jerror "Error" "Network request failed and no cached data available"

/-- `staleWhileRevalidate(cacheManager, key, fetchFn, options)`: read the
stale value and freshness synchronously, start the revalidation (its
`.then` stores the data and resolves it, its `.catch` records the error in
`fetchError` and resolves `null`), return the cached value immediately
when one exists, and otherwise wait on the revalidation: a `null` result
is treated as failure and re-throws `fetchError || new Error(...)`. -/
def staleWhileRevalidate (cacheManager : CacheManager) (now : Nat)
    (key : String) (fetchOutcome : Except JVal JVal) (options : SetOptions) :
    CacheManager × Except JVal SWRResult :=
  let cached := cacheManager.getStale key
  let hasR := cacheManager.has now key
  let cacheManager := hasR.1
  let isFresh := hasR.2
  -- the settled revalidation: (state after it settles, resolved value,
  -- the `fetchError` variable)
  let settled : CacheManager × JVal × Option JVal :=
    match fetchOutcome with
    | .ok data => ((cacheManager.set now key data options).1, data, none)
    | .error error => (cacheManager, JVal.jnull, some error)
  let cacheManager := settled.1
  let resolved := settled.2.1
  let fetchError := settled.2.2
  if cached ≠ JVal.jnull then
    (cacheManager,
      .ok { data := cached
            source := "cache"
            stale := !isFresh
            revalidating := true })
  else if resolved = JVal.jnull then
    (cacheManager,
      .error (match fetchError with
              | some e => if e.truthy then e else swrGenericError
              | none => swrGenericError))
  else
    (cacheManager,
      .ok { data := resolved
            source := "network"
            stale := false
            revalidating := false })

section SWRClaims

/-- C5 counterexample: with an empty cache and a fetcher that RESOLVES
with `null`, the call does not resolve to a `{source: network}` result as
the claim states — it rejects with the substitute generic error. -/
theorem C5_swr_counterexample :
    (staleWhileRevalidate (CacheManager.init (some 10) none) 0 "k"
      (Except.ok JVal.jnull) {}).2 = Except.error swrGenericError
    ∧ Except.error swrGenericError ≠
      (Except.ok { data := JVal.jnull
                   source := "network"
                   stale := false
                   revalidating := false } : Except JVal SWRResult) := by
  constructor
  · rfl
  · intro h
    cases h

/-- C5 amended: with no cached value present, the returned promise waits
on the revalidation; if the fetcher resolves with a non-null value it
resolves to `{source: network, stale: false}` carrying that value; if the
fetcher resolves with `null` it rejects with the substitute generic
error; if the fetcher rejects with a truthy error value it rejects with
that identical error object; a falsy rejection value is replaced by the
generic error. -/
theorem C5_swr_no_cache (s : CacheManager) (now : Nat) (key : String)
    (outcome : Except JVal JVal) (opts : SetOptions)
    (habsent : s.getStale key = JVal.jnull) :
    (∀ d : JVal, d ≠ JVal.jnull → outcome = .ok d →
      (staleWhileRevalidate s now key outcome opts).2 =
        .ok { data := d
              source := "network"
              stale := false
              revalidating := false })
    ∧ (outcome = .ok JVal.jnull →
      (staleWhileRevalidate s now key outcome opts).2 =
        .error swrGenericError)
    ∧ (∀ e : JVal, e.truthy = true → outcome = .error e →
      (staleWhileRevalidate s now key outcome opts).2 = .error e)
    ∧ (∀ e : JVal, e.truthy = false → outcome = .error e →
      (staleWhileRevalidate s now key outcome opts).2 =
        .error swrGenericError) := by
  refine ⟨?_, ?_, ?_, ?_⟩
  · intro d hd hout
    subst hout
    unfold staleWhileRevalidate
    dsimp only
    rw [if_neg (by simp [habsent]), if_neg hd]
  · intro hout
    subst hout
    unfold staleWhileRevalidate
    dsimp only
    rw [if_neg (by simp [habsent]), if_pos rfl]
  · intro e htr hout
    subst hout
    unfold staleWhileRevalidate
    dsimp only
    rw [if_neg (by simp [habsent]), if_pos rfl]
    simp [htr]
  · intro e htr hout
    subst hout
    unfold staleWhileRevalidate
    dsimp only
    rw [if_neg (by simp [habsent]), if_pos rfl]
    simp [htr]

/-- Witness for C5 (amended): an AbortError rejection from the fetcher is
re-raised identically by the no-cache path. -/
theorem C5_swr_no_cache_witness :
    (CacheManager.init (some 10) none).getStale "k" = JVal.jnull
    ∧ (JVal.jerror "AbortError" "The operation was aborted").truthy = true
    ∧ (staleWhileRevalidate (CacheManager.init (some 10) none) 0 "k"
        (Except.error (JVal.jerror "AbortError" "The operation was aborted"))
        {}).2 =
      Except.error (JVal.jerror "AbortError" "The operation was aborted") :=
  ⟨by decide, by decide,
    (C5_swr_no_cache (CacheManager.init (some 10) none) 0 "k"
      (Except.error (JVal.jerror "AbortError" "The operation was aborted")) {}
      (by decide)).2.2.1
      (JVal.jerror "AbortError" "The operation was aborted") (by decide) rfl⟩

end SWRClaims

/-!
WebSocketManager (`WebSocketManager.js`): the outbound message queue, the
`send` path, and the queue flush.  Only the fields the send/queue path
touches are carried; serialization (`_sendRaw`'s `JSON.stringify` and the
actual `ws.send`) is modelled as succeeding, so transmitted messages are
reported in a list.
-/

/-- The wire envelope `{id, type, payload, timestamp}` built by `send`. -/
structure WSMessage where
  id : String
  type : String
  payload : JVal
  timestamp : Nat
deriving Repr, DecidableEq

/-- The slice of WebSocketManager state that `send`, `_enqueueMessage` and
`_flushQueue` read and write. -/
structure WSQueueState where
  messageQueue : List WSMessage
  messageIdCounter : Nat
  maxQueueSize : Nat
deriving Repr, DecidableEq

/-- `_enqueueMessage(message)`: at or above `maxQueueSize` the oldest
queued message is shifted off (and the drop logged) before the new
message is pushed. -/
def WSQueueState._enqueueMessage (s : WSQueueState) (message : WSMessage) :
    WSQueueState :=
  let q := if s.maxQueueSize ≤ s.messageQueue.length
           then s.messageQueue.drop 1 else s.messageQueue
  { s with messageQueue := q ++ [message] }

/-- `send(type, payload)`: build the envelope with a fresh
`msg-${++messageIdCounter}` id; transmit immediately when the transport
is open, otherwise enqueue; return the id unconditionally.  The middle
component lists the messages transmitted by this call. -/
def WSQueueState.send (s : WSQueueState) (wsOpen : Bool) (type : String)
    (payload : JVal) (now : Nat) : WSQueueState × List WSMessage × String :=
  let counter := s.messageIdCounter + 1
  let message : WSMessage :=
    { id := "msg-" ++ toString counter
      type := type
      payload := payload
      timestamp := now }
  let s := { s with messageIdCounter := counter }
  if wsOpen then (s, [message], message.id)
  else (s._enqueueMessage message, [], message.id)

/-- `_flushQueue()`: while the queue is non-empty and the transport is
open, shift the head and transmit it.  Returns the transmitted messages
in order and the remaining queue. -/
def WSQueueState._flushQueue (wsOpen : Bool) :
    List WSMessage → List WSMessage × List WSMessage
  | [] => ([], [])
  | message :: rest =>
    if wsOpen then
      let r := WSQueueState._flushQueue wsOpen rest
      (message :: r.1, r.2)
    else ([], message :: rest)

/-- Drive a sequence of `send` calls against a closed transport,
collecting the returned message ids in call order. -/
def WSQueueState.runSendsClosed (s : WSQueueState) :
    List (String × JVal × Nat) → WSQueueState × List String
  | [] => (s, [])
  | c :: calls =>
    let r := s.send false c.1 c.2.1 c.2.2
    let rest := r.1.runSendsClosed calls
    (rest.1, r.2.2 :: rest.2)

/-- The envelopes the calls produce when the id counter starts at `c₀`
(statement-side description of the expected result). -/
def expectedMessages (c₀ : Nat) : List (String × JVal × Nat) → List WSMessage
  | [] => []
  | c :: calls =>
    { id := "msg-" ++ toString (c₀ + 1)
      type := c.1
      payload := c.2.1
      timestamp := c.2.2 } :: expectedMessages (c₀ + 1) calls

/-- The ids those calls return. -/
def expectedIds (c₀ : Nat) : Nat → List String
  | 0 => []
  | n + 1 => ("msg-" ++ toString (c₀ + 1)) :: expectedIds (c₀ + 1) n

section QueueLemmas

theorem flushQueue_open (q : List WSMessage) :
    WSQueueState._flushQueue true q = (q, []) := by
  induction q with
  | nil => rfl
  | cons m rest ih =>
    rw [WSQueueState._flushQueue, if_pos rfl, ih]

theorem expectedMessages_length (c₀ : Nat)
    (calls : List (String × JVal × Nat)) :
    (expectedMessages c₀ calls).length = calls.length := by
  induction calls generalizing c₀ with
  | nil => rfl
  | cons c calls ih =>
    rw [expectedMessages, List.length_cons, List.length_cons, ih]

theorem runSendsClosed_spec (calls : List (String × JVal × Nat))
    (s : WSQueueState) (hmax : 0 < s.maxQueueSize)
    (hlen : s.messageQueue.length ≤ s.maxQueueSize) :
    (s.runSendsClosed calls).1.messageIdCounter
        = s.messageIdCounter + calls.length
    ∧ (s.runSendsClosed calls).1.maxQueueSize = s.maxQueueSize
    ∧ (s.runSendsClosed calls).2 = expectedIds s.messageIdCounter calls.length
    ∧ (s.runSendsClosed calls).1.messageQueue =
        (s.messageQueue ++ expectedMessages s.messageIdCounter calls).drop
          ((s.messageQueue.length + calls.length) - s.maxQueueSize)
    ∧ (s.runSendsClosed calls).1.messageQueue.length ≤ s.maxQueueSize := by
  induction calls generalizing s with
  | nil =>
    refine ⟨rfl, rfl, rfl, ?_, hlen⟩
    show s.messageQueue = _
    rw [expectedMessages, List.append_nil, List.length_nil, Nat.add_zero,
      Nat.sub_eq_zero_of_le hlen, List.drop_zero]
  | cons c calls ih =>
    have hq : ∀ m : WSMessage, (WSQueueState._enqueueMessage
        { s with messageIdCounter := s.messageIdCounter + 1 } m).messageQueue
        = (s.messageQueue ++ [m]).drop
            (s.messageQueue.length + 1 - s.maxQueueSize) := by
      intro m
      unfold WSQueueState._enqueueMessage
      dsimp only
      by_cases hc : s.maxQueueSize ≤ s.messageQueue.length
      · rw [if_pos hc]
        have hd : (s.messageQueue ++ [m]).drop 1
            = s.messageQueue.drop 1 ++ [m] :=
          List.drop_append_of_le_length (by omega)
        rw [show s.messageQueue.length + 1 - s.maxQueueSize = 1 by omega, hd]
      · rw [if_neg hc]
        rw [show s.messageQueue.length + 1 - s.maxQueueSize = 0 by omega,
          List.drop_zero]
    have hqlen : ∀ m : WSMessage, (WSQueueState._enqueueMessage
        { s with messageIdCounter := s.messageIdCounter + 1 } m).messageQueue.length
        ≤ s.maxQueueSize := by
      intro m
      rw [hq m, List.length_drop, List.length_append]
      simp only [List.length_cons, List.length_nil]
      omega
    have hmx : ∀ m : WSMessage, (WSQueueState._enqueueMessage
        { s with messageIdCounter := s.messageIdCounter + 1 } m).maxQueueSize
        = s.maxQueueSize := fun _ => rfl
    have hcn : ∀ m : WSMessage, (WSQueueState._enqueueMessage
        { s with messageIdCounter := s.messageIdCounter + 1 } m).messageIdCounter
        = s.messageIdCounter + 1 := fun _ => rfl
    have ihs := ih (WSQueueState._enqueueMessage
      { s with messageIdCounter := s.messageIdCounter + 1 }
      { id := "msg-" ++ toString (s.messageIdCounter + 1)
        type := c.1
        payload := c.2.1
        timestamp := c.2.2 })
      hmax (hqlen _)
    rw [WSQueueState.runSendsClosed]
    dsimp only
    rw [show (s.send false c.1 c.2.1 c.2.2).1 =
        WSQueueState._enqueueMessage
          { s with messageIdCounter := s.messageIdCounter + 1 }
          { id := "msg-" ++ toString (s.messageIdCounter + 1)
            type := c.1
            payload := c.2.1
            timestamp := c.2.2 } from rfl]
    refine ⟨?_, ?_, ?_, ?_, ?_⟩
    · rw [ihs.1, hcn, List.length_cons]
      omega
    · rw [ihs.2.1, hmx]
    · rw [ihs.2.2.1, hcn, List.length_cons]
      rfl
    · rw [ihs.2.2.2.1, hq, hcn, hmx]
      rw [show expectedMessages s.messageIdCounter (c :: calls)
          = { id := "msg-" ++ toString (s.messageIdCounter + 1)
              type := c.1
              payload := c.2.1
              timestamp := c.2.2 } ::
            expectedMessages (s.messageIdCounter + 1) calls from rfl]
      have hdra : ∀ (m : WSMessage) (E : List WSMessage),
          (s.messageQueue ++ [m]).drop
            (s.messageQueue.length + 1 - s.maxQueueSize) ++ E
          = ((s.messageQueue ++ [m]) ++ E).drop
            (s.messageQueue.length + 1 - s.maxQueueSize) := by
        intro m E
        exact (List.drop_append_of_le_length (by
          rw [List.length_append]
          simp only [List.length_cons, List.length_nil]
          omega)).symm
      rw [hdra, List.drop_drop]
      rw [List.append_assoc, List.singleton_append]
      congr 1
      rw [List.length_drop, List.length_append]
      simp only [List.length_cons, List.length_nil]
      omega
    · exact ihs.2.2.2.2

end QueueLemmas

/-- C2: with the transport not open, every `send` enqueues (never throws)
and returns the freshly generated id `msg-(i+1)` for the i-th call; the
queue is FIFO and bounded by `maxQueueSize`, dropping the oldest message
(never the new one) on overflow, so after any call sequence from an empty
queue exactly the most recent `maxQueueSize` messages survive in order;
and on (re)open the flush transmits the surviving messages in that
order, emptying the queue. -/
theorem C2_send_closed_queue (M : Nat) (hM : 0 < M)
    (calls : List (String × JVal × Nat)) :
    (WSQueueState.runSendsClosed
        { messageQueue := [], messageIdCounter := 0, maxQueueSize := M }
        calls).2 = expectedIds 0 calls.length
    ∧ (WSQueueState.runSendsClosed
        { messageQueue := [], messageIdCounter := 0, maxQueueSize := M }
        calls).1.messageQueue =
        (expectedMessages 0 calls).drop (calls.length - M)
    ∧ (WSQueueState.runSendsClosed
        { messageQueue := [], messageIdCounter := 0, maxQueueSize := M }
        calls).1.messageQueue.length ≤ M
    ∧ WSQueueState._flushQueue true
        (WSQueueState.runSendsClosed
          { messageQueue := [], messageIdCounter := 0, maxQueueSize := M }
          calls).1.messageQueue =
        ((WSQueueState.runSendsClosed
          { messageQueue := [], messageIdCounter := 0, maxQueueSize := M }
          calls).1.messageQueue, []) := by
  have h := runSendsClosed_spec calls
    { messageQueue := [], messageIdCounter := 0, maxQueueSize := M }
    hM (by simp)
  refine ⟨h.2.2.1, ?_, h.2.2.2.2, flushQueue_open _⟩
  have h2 := h.2.2.2.1
  simpa using h2

/-- Witness for C2: seven sends against a closed transport with a queue
cap of 5 keep messages 3..7 in order. -/
theorem C2_send_closed_queue_witness :
    0 < 5 ∧
    (WSQueueState.runSendsClosed
        { messageQueue := [], messageIdCounter := 0, maxQueueSize := 5 }
        [("a", JVal.jnum 1, 0), ("b", JVal.jnum 2, 1), ("c", JVal.jnum 3, 2),
         ("d", JVal.jnum 4, 3), ("e", JVal.jnum 5, 4), ("f", JVal.jnum 6, 5),
         ("g", JVal.jnum 7, 6)]).1.messageQueue =
      (expectedMessages 0
        [("a", JVal.jnum 1, 0), ("b", JVal.jnum 2, 1), ("c", JVal.jnum 3, 2),
         ("d", JVal.jnum 4, 3), ("e", JVal.jnum 5, 4), ("f", JVal.jnum 6, 5),
         ("g", JVal.jnum 7, 6)]).drop 2 :=
  ⟨by decide,
    (C2_send_closed_queue 5 (by decide)
      [("a", JVal.jnum 1, 0), ("b", JVal.jnum 2, 1), ("c", JVal.jnum 3, 2),
       ("d", JVal.jnum 4, 3), ("e", JVal.jnum 5, 4), ("f", JVal.jnum 6, 5),
       ("g", JVal.jnum 7, 6)]).2.1⟩

/-!
`_scheduleReconnect()` from `WebSocketManager.js`.  `Math.random() * 1000`
is passed in as an explicit `jitter` parameter (a rational in
`[0, 1000)`); delays are rationals in milliseconds.
-/

structure ReconnectOptions where
  maxReconnectAttempts : Nat
  baseReconnectDelay : Nat
  maxReconnectDelay : Nat
deriving Repr, DecidableEq

/-- `_scheduleReconnect()`: when `reconnectAttempts` has reached
`maxReconnectAttempts` it logs and returns without scheduling anything
(`none`); otherwise it increments the attempt counter and schedules a
timer after `min(base * 2^(attempts-1) + jitter, maxDelay)` ms, returning
the new attempt number with the delay. -/
def _scheduleReconnect (options : ReconnectOptions) (reconnectAttempts : Nat)
    (jitter : ℚ) : Option (Nat × ℚ) :=
  if options.maxReconnectAttempts ≤ reconnectAttempts then none
  else
    let attempts := reconnectAttempts + 1
    some (attempts,
      min ((options.baseReconnectDelay : ℚ) * 2 ^ (attempts - 1) + jitter)
        (options.maxReconnectDelay : ℚ))

/-- Repeated invocations of `_scheduleReconnect` (one per connection
failure, with no successful open in between, so the attempt counter is
never reset): returns the final attempt counter and the list of
scheduled (attempt, delay) pairs. -/
def reconnectRun (options : ReconnectOptions) :
    Nat → List ℚ → Nat × List (Nat × ℚ)
  | attempts, [] => (attempts, [])
  | attempts, j :: js =>
    match _scheduleReconnect options attempts j with
    | none => reconnectRun options attempts js
    | some p =>
      let r := reconnectRun options p.1 js
      (r.1, p :: r.2)

/-- C3: the delay scheduled for attempt n is
`min(base * 2^(n-1) + jitter, maxDelay)` with jitter in `[0, 1000)`;
ignoring jitter, consecutive attempt delays are non-decreasing and capped
at `maxReconnectDelay`; and once the attempt counter has reached
`maxReconnectAttempts` no invocation ever schedules another attempt. -/
theorem C3_reconnect_backoff (options : ReconnectOptions) (jitter : ℚ)
    (h0 : 0 ≤ jitter) (h1 : jitter < 1000) :
    (∀ n : Nat, 1 ≤ n → n ≤ options.maxReconnectAttempts →
      _scheduleReconnect options (n - 1) jitter =
        some (n, min ((options.baseReconnectDelay : ℚ) * 2 ^ (n - 1) + jitter)
          (options.maxReconnectDelay : ℚ)))
    ∧ (∀ n : Nat, 1 ≤ n → n + 1 ≤ options.maxReconnectAttempts →
        ∃ d d' : ℚ, _scheduleReconnect options (n - 1) 0 = some (n, d)
          ∧ _scheduleReconnect options n 0 = some (n + 1, d')
          ∧ d ≤ d' ∧ d ≤ (options.maxReconnectDelay : ℚ))
    ∧ (∀ attempts : Nat, options.maxReconnectAttempts ≤ attempts →
        ∀ js : List ℚ, reconnectRun options attempts js = (attempts, [])) := by
  refine ⟨?_, ?_, ?_⟩
  · intro n hn hcap
    unfold _scheduleReconnect
    rw [if_neg (by omega)]
    rw [show n - 1 + 1 = n by omega]
  · intro n hn hcap
    refine ⟨min ((options.baseReconnectDelay : ℚ) * 2 ^ (n - 1) + 0)
        (options.maxReconnectDelay : ℚ),
      min ((options.baseReconnectDelay : ℚ) * 2 ^ n + 0)
        (options.maxReconnectDelay : ℚ), ?_, ?_, ?_, ?_⟩
    · unfold _scheduleReconnect
      rw [if_neg (by omega)]
      rw [show n - 1 + 1 = n by omega]
    · unfold _scheduleReconnect
      rw [if_neg (by omega)]
      dsimp only
      rw [show n + 1 - 1 = n by omega]
    · refine min_le_min (by
        have hexp : (2 : ℚ) ^ (n - 1) ≤ 2 ^ n := by
          apply pow_le_pow_right (by norm_num)
          omega
        have hb : (0 : ℚ) ≤ (options.baseReconnectDelay : ℚ) := by positivity
        nlinarith) (le_refl _)
    · exact min_le_right _ _
  · intro attempts hcap js
    induction js with
    | nil => rfl
    | cons j js ih =>
      rw [reconnectRun]
      rw [show _scheduleReconnect options attempts j = none by
        unfold _scheduleReconnect
        rw [if_pos hcap]]
      exact ih

/-- Witness for C3: with the default options, the second reconnect
attempt (jitter 500) is scheduled after `min(1000·2 + 500, 30000)` ms. -/
theorem C3_reconnect_backoff_witness :
    (0 : ℚ) ≤ 500 ∧ (500 : ℚ) < 1000 ∧
    _scheduleReconnect
      { maxReconnectAttempts := 10
        baseReconnectDelay := 1000
        maxReconnectDelay := 30000 } (2 - 1) 500 =
      some (2, min ((1000 : ℚ) * 2 ^ (2 - 1) + 500) (30000 : ℚ)) :=
  ⟨by norm_num, by norm_num,
    (C3_reconnect_backoff
      { maxReconnectAttempts := 10
        baseReconnectDelay := 1000
        maxReconnectDelay := 30000 } 500 (by norm_num) (by norm_num)).1 2
      (by norm_num) (by norm_num)⟩

/-!
The heartbeat monitor from `WebSocketManager.js`
(`_startHeartbeatMonitor`, the `heartbeat:ping` branch of
`_handleMessage`, and `_handleClose`'s `_clearTimers`).  Events: a firing
of the `setInterval` callback (`tick`), receipt of a `heartbeat:ping`
(`ping`: reply with pong — not tracked here — then
`_resetHeartbeatTimeout()` zeroes the miss count and `lastHeartbeatAt` is
set to now), and the arrival of the transport `close` event (`closeEvt`:
`_clearTimers()` cancels the interval).  `missedFires`/`deadFires`/
`closeCalls` count the `heartbeat:missed`/`heartbeat:dead` notifications
and the `ws.close(4000, ...)` calls. -/

structure HeartbeatOptions where
  heartbeatInterval : Nat
  heartbeatTimeout : Nat
deriving Repr, DecidableEq

structure HeartbeatState where
  lastHeartbeatAt : Option Nat
  heartbeatMissCount : Nat
  timerActive : Bool
  missedFires : Nat
  deadFires : Nat
  closeCalls : Nat
deriving Repr, DecidableEq

/-- The constructor state: no heartbeat seen, no timers. -/
def heartbeatIdle : HeartbeatState :=
  { lastHeartbeatAt := none
    heartbeatMissCount := 0
    timerActive := false
    missedFires := 0
    deadFires := 0
    closeCalls := 0 }

/-- `_startHeartbeatMonitor()` (run on open). -/
def _startHeartbeatMonitor (now : Nat) (s : HeartbeatState) : HeartbeatState :=
  { s with
    heartbeatMissCount := 0
    lastHeartbeatAt := some now
    timerActive := true }

inductive HBEvent where
  | tick (now : Nat)
  | ping (now : Nat)
  | closeEvt
deriving Repr, DecidableEq

/-- One event step of the heartbeat machinery.  The `tick` branch is the
body of the `setInterval` callback: if the elapsed time since the last
heartbeat exceeds `heartbeatInterval + heartbeatTimeout`, increment the
miss count and fire `heartbeat:missed`; once the miss count is at least
3, fire `heartbeat:dead` and call `ws.close(4000, 'Heartbeat timeout')`.
Nothing in that branch stops the interval timer — only the close event
(or an explicit disconnect) does, via `_clearTimers`. -/
def hbStep (options : HeartbeatOptions) (s : HeartbeatState) :
    HBEvent → HeartbeatState
  | .tick now =>
    if s.timerActive then
      match s.lastHeartbeatAt with
      | none => s
      | some last =>
        let elapsed := now - last
        if options.heartbeatInterval + options.heartbeatTimeout < elapsed then
          let s' := { s with
            heartbeatMissCount := s.heartbeatMissCount + 1
            missedFires := s.missedFires + 1 }
          if 3 ≤ s'.heartbeatMissCount then
            { s' with
              deadFires := s'.deadFires + 1
              closeCalls := s'.closeCalls + 1 }
          else s'
        else s
    else s
  | .ping now =>
    { s with
      heartbeatMissCount := 0
      lastHeartbeatAt := some now }
  | .closeEvt => { s with timerActive := false }

def hbRun (options : HeartbeatOptions) (s : HeartbeatState)
    (es : List HBEvent) : HeartbeatState :=
  es.foldl (hbStep options) s

section HeartbeatLemmas

/-- Along a trace of monitor ticks with no ping and no close event, the
miss count accumulates one per tick whose elapsed time exceeds the
window, and dead/close fire at every tick that brings the miss count to
three or more. -/
theorem hb_ticks_run (options : HeartbeatOptions) (t0 : Nat) :
    ∀ (ts : List Nat) (s : HeartbeatState),
      s.timerActive = true → s.lastHeartbeatAt = some t0 →
      (hbRun options s (ts.map HBEvent.tick)).heartbeatMissCount
          = s.heartbeatMissCount + (ts.filter (fun t =>
              options.heartbeatInterval + options.heartbeatTimeout
                < t - t0)).length
      ∧ (hbRun options s (ts.map HBEvent.tick)).deadFires
          = s.deadFires + ((s.heartbeatMissCount + (ts.filter (fun t =>
              options.heartbeatInterval + options.heartbeatTimeout
                < t - t0)).length - 2) - (s.heartbeatMissCount - 2))
      ∧ (hbRun options s (ts.map HBEvent.tick)).closeCalls
          = s.closeCalls + ((s.heartbeatMissCount + (ts.filter (fun t =>
              options.heartbeatInterval + options.heartbeatTimeout
                < t - t0)).length - 2) - (s.heartbeatMissCount - 2))
      ∧ (hbRun options s (ts.map HBEvent.tick)).timerActive = true := by
  intro ts
  induction ts with
  | nil =>
    intro s hact hlast
    refine ⟨by simp [hbRun], by simp [hbRun], by simp [hbRun], by simp [hbRun, hact]⟩
  | cons t ts ih =>
    intro s hact hlast
    have hstep : hbRun options s ((t :: ts).map HBEvent.tick)
        = hbRun options (hbStep options s (HBEvent.tick t)) (ts.map HBEvent.tick) := rfl
    by_cases hqual : options.heartbeatInterval + options.heartbeatTimeout
        < t - t0
    · have hs' : hbStep options s (HBEvent.tick t) =
          (if 3 ≤ s.heartbeatMissCount + 1 then
            { s with
              heartbeatMissCount := s.heartbeatMissCount + 1
              missedFires := s.missedFires + 1
              deadFires := s.deadFires + 1
              closeCalls := s.closeCalls + 1 }
          else
            { s with
              heartbeatMissCount := s.heartbeatMissCount + 1
              missedFires := s.missedFires + 1 }) := by
        unfold hbStep
        dsimp only
        rw [hact, if_pos rfl, hlast]
        dsimp only
        rw [if_pos hqual]
      have hfil : (t :: ts).filter (fun t =>
          options.heartbeatInterval + options.heartbeatTimeout < t - t0)
          = t :: ts.filter (fun t =>
              options.heartbeatInterval + options.heartbeatTimeout < t - t0) := by
        rw [List.filter_cons_of_pos (by simpa using hqual)]
      rw [hstep, hs', hfil]
      by_cases h3 : 3 ≤ s.heartbeatMissCount + 1
      · rw [if_pos h3]
        have ihs := ih { s with
            heartbeatMissCount := s.heartbeatMissCount + 1
            missedFires := s.missedFires + 1
            deadFires := s.deadFires + 1
            closeCalls := s.closeCalls + 1 } hact hlast
        refine ⟨?_, ?_, ?_, ihs.2.2.2⟩
        · rw [ihs.1]
          dsimp only
          rw [List.length_cons]
          omega
        · rw [ihs.2.1]
          dsimp only
          rw [List.length_cons]
          omega
        · rw [ihs.2.2.1]
          dsimp only
          rw [List.length_cons]
          omega
      · rw [if_neg h3]
        have ihs := ih { s with
            heartbeatMissCount := s.heartbeatMissCount + 1
            missedFires := s.missedFires + 1 } hact hlast
        refine ⟨?_, ?_, ?_, ihs.2.2.2⟩
        · rw [ihs.1]
          dsimp only
          rw [List.length_cons]
          omega
        · rw [ihs.2.1]
          dsimp only
          rw [List.length_cons]
          omega
        · rw [ihs.2.2.1]
          dsimp only
          rw [List.length_cons]
          omega
    · have hs' : hbStep options s (HBEvent.tick t) = s := by
        unfold hbStep
        dsimp only
        rw [hact, if_pos rfl, hlast]
        dsimp only
        rw [if_neg hqual]
      have hfil : (t :: ts).filter (fun t =>
          options.heartbeatInterval + options.heartbeatTimeout < t - t0)
          = ts.filter (fun t =>
              options.heartbeatInterval + options.heartbeatTimeout < t - t0) := by
        rw [List.filter_cons_of_neg (by simpa using hqual)]
      rw [hstep, hs', hfil]
      exact ih s hact hlast

/-- Once the interval timer is cancelled, no later event fires
`heartbeat:dead` or calls `close` again (nothing re-arms the timer short
of a reconnect restarting the monitor). -/
theorem hb_inactive_run (options : HeartbeatOptions) :
    ∀ (es : List HBEvent) (s : HeartbeatState), s.timerActive = false →
      (hbRun options s es).deadFires = s.deadFires
      ∧ (hbRun options s es).closeCalls = s.closeCalls := by
  intro es
  induction es with
  | nil => exact fun s _ => ⟨rfl, rfl⟩
  | cons e es ih =>
    intro s hin
    have hstep : hbRun options s (e :: es) = hbRun options (hbStep options s e) es := rfl
    rw [hstep]
    cases e with
    | tick now =>
      rw [show hbStep options s (HBEvent.tick now) = s by
        unfold hbStep
        rw [hin]
        rfl]
      exact ih s hin
    | ping now =>
      have := ih { s with
          heartbeatMissCount := 0
          lastHeartbeatAt := some now } hin
      exact ⟨this.1, this.2⟩
    | closeEvt =>
      have := ih { s with timerActive := false } rfl
      exact ⟨this.1, this.2⟩

end HeartbeatLemmas

/-- C4 counterexample: with the default windows, a dead connection whose
close event has not yet arrived sees `heartbeat:dead` fired and
`ws.close(4000)` called TWICE (ticks at 120000 and 150000), because the
guard is `missCount >= 3` and nothing stops the interval timer — the
claim's "exactly once — never repeatedly" is false on the code. -/
theorem C4_heartbeat_dead_counterexample :
    (hbRun { heartbeatInterval := 30000, heartbeatTimeout := 5000 }
      (_startHeartbeatMonitor 0 heartbeatIdle)
      [HBEvent.tick 30000, HBEvent.tick 60000, HBEvent.tick 90000,
       HBEvent.tick 120000, HBEvent.tick 150000]).deadFires = 2
    ∧ (hbRun { heartbeatInterval := 30000, heartbeatTimeout := 5000 }
      (_startHeartbeatMonitor 0 heartbeatIdle)
      [HBEvent.tick 30000, HBEvent.tick 60000, HBEvent.tick 90000,
       HBEvent.tick 120000, HBEvent.tick 150000]).closeCalls = 2 := by
  constructor
  · rfl
  · rfl

/-- C4 amended: across monitor ticks with exactly three missed windows
(and no ping), `heartbeat:dead` fires and `close(4000)` is called exactly
once — at the third miss; and it stays exactly once provided the
transport close event (which cancels the interval timer) arrives before
any further tick; each further tick before the close event would re-fire
them. -/
theorem C4_heartbeat_dead_once (options : HeartbeatOptions) (t0 : Nat)
    (ts : List Nat) (es₂ : List HBEvent)
    (hq : (ts.filter (fun t =>
        options.heartbeatInterval + options.heartbeatTimeout < t - t0)).length
      = 3) :
    (hbRun options (_startHeartbeatMonitor t0 heartbeatIdle)
        (ts.map HBEvent.tick)).deadFires = 1
    ∧ (hbRun options (_startHeartbeatMonitor t0 heartbeatIdle)
        (ts.map HBEvent.tick)).closeCalls = 1
    ∧ (hbRun options (_startHeartbeatMonitor t0 heartbeatIdle)
        (ts.map HBEvent.tick ++ HBEvent.closeEvt :: es₂)).deadFires = 1
    ∧ (hbRun options (_startHeartbeatMonitor t0 heartbeatIdle)
        (ts.map HBEvent.tick ++ HBEvent.closeEvt :: es₂)).closeCalls = 1 := by
  have hrun := hb_ticks_run options t0 ts
    (_startHeartbeatMonitor t0 heartbeatIdle) rfl rfl
  rw [hq] at hrun
  have hdead : (hbRun options (_startHeartbeatMonitor t0 heartbeatIdle)
      (ts.map HBEvent.tick)).deadFires = 1 := by
    rw [hrun.2.1]
    rfl
  have hclose : (hbRun options (_startHeartbeatMonitor t0 heartbeatIdle)
      (ts.map HBEvent.tick)).closeCalls = 1 := by
    rw [hrun.2.2.1]
    rfl
  have hsplit : hbRun options (_startHeartbeatMonitor t0 heartbeatIdle)
      (ts.map HBEvent.tick ++ HBEvent.closeEvt :: es₂)
      = hbRun options (hbStep options
          (hbRun options (_startHeartbeatMonitor t0 heartbeatIdle)
            (ts.map HBEvent.tick)) HBEvent.closeEvt) es₂ := by
    unfold hbRun
    rw [List.foldl_append]
    rfl
  have hinact := hb_inactive_run options es₂
    (hbStep options (hbRun options (_startHeartbeatMonitor t0 heartbeatIdle)
      (ts.map HBEvent.tick)) HBEvent.closeEvt) rfl
  refine ⟨hdead, hclose, ?_, ?_⟩
  · rw [hsplit, hinact.1]
    exact hdead
  · rw [hsplit, hinact.2]
    exact hclose

/-!
Inbound dispatch: `_handleMessage` (the reserved-type switch followed by
`_notifyHandlers(message.type, message.payload)` and the global
`onMessage`), and the `trackMessageSequence` method.  A parsed envelope
is an `InboundMessage`; `clientId` models `message.payload?.clientId` and
`sequence` the numeric sequence field of the envelope when present.
`sent` records the messages the handler sends back (`auth:token`,
`heartbeat:pong`) and `delivered` the `_notifyHandlers` dispatches in
order. -/

structure InboundMessage where
  type : String
  payload : JVal
  clientId : Option String
  sequence : Option Int
deriving Repr, DecidableEq

structure WSDispatchState where
  connectionId : Option String
  authenticated : Bool
  lastHeartbeatAt : Option Nat
  heartbeatMissCount : Nat
  messageSequence : Nat
  outOfOrderCount : Nat
  lastReceivedSequence : Int
  sent : List (String × JVal)
  delivered : List (String × JVal)
deriving Repr, DecidableEq

/-- Constructor values of the sequence/auth/heartbeat bookkeeping
(`lastReceivedSequence = -1`). -/
def wsDispatchInit : WSDispatchState :=
  { connectionId := none
    authenticated := false
    lastHeartbeatAt := none
    heartbeatMissCount := 0
    messageSequence := 0
    outOfOrderCount := 0
    lastReceivedSequence := -1
    sent := []
    delivered := [] }

/-- `_handleMessage(event)` after JSON parsing: the switch over the
reserved types, then dispatch to type handlers and the global handler.
Note that no branch reads the `sequence` field or calls
`trackMessageSequence`. -/
def _handleMessage (authToken : Option String) (now : Nat)
    (s : WSDispatchState) (message : InboundMessage) : WSDispatchState :=
  let s :=
    match message.type with
    | "connection:established" =>
      let s := { s with connectionId := message.clientId }
      match authToken with
      | some token => { s with sent := s.sent ++ [("auth:token", JVal.jstr token)] }
      | none => s
    | "auth:required" =>
      match authToken with
      | some token => { s with sent := s.sent ++ [("auth:token", JVal.jstr token)] }
      | none => s
    | "auth:success" => { s with authenticated := true }
    | "auth:failed" => { s with authenticated := false }
    | "heartbeat:ping" =>
      let s := { s with sent := s.sent ++ [("heartbeat:pong", JVal.jnum now)] }
      { s with
        heartbeatMissCount := 0
        lastHeartbeatAt := some now }
    | _ => s
  { s with delivered := s.delivered ++ [(message.type, message.payload)] }

/-- `trackMessageSequence(sequenceNum)`: bump the processed count, count
an out-of-order delivery when a present sequence number is not greater
than the last seen one, and record it.  (Defined on the class, documented
as detecting out-of-order delivery — but never invoked by
`_handleMessage` or anything else in the repository.) -/
def trackMessageSequence (s : WSDispatchState) (sequenceNum : Option Int) :
    WSDispatchState :=
  let s := { s with messageSequence := s.messageSequence + 1 }
  let s :=
    match sequenceNum with
    | some n =>
      if n ≤ s.lastReceivedSequence then
        { s with outOfOrderCount := s.outOfOrderCount + 1 }
      else s
    | none => s
  match sequenceNum with
  | some n => { s with lastReceivedSequence := n }
  | none => s

def runInbound (authToken : Option String) (now : Nat) (s : WSDispatchState)
    (msgs : List InboundMessage) : WSDispatchState :=
  msgs.foldl (_handleMessage authToken now) s

section DispatchLemmas

theorem handleMessage_seq_fields (authToken : Option String) (now : Nat)
    (s : WSDispatchState) (message : InboundMessage) :
    (_handleMessage authToken now s message).outOfOrderCount = s.outOfOrderCount
    ∧ (_handleMessage authToken now s message).lastReceivedSequence
        = s.lastReceivedSequence
    ∧ (_handleMessage authToken now s message).messageSequence
        = s.messageSequence := by
  unfold _handleMessage
  dsimp only
  split
  · rcases authToken with _ | token
    · exact ⟨rfl, rfl, rfl⟩
    · exact ⟨rfl, rfl, rfl⟩
  · rcases authToken with _ | token
    · exact ⟨rfl, rfl, rfl⟩
    · exact ⟨rfl, rfl, rfl⟩
  · exact ⟨rfl, rfl, rfl⟩
  · exact ⟨rfl, rfl, rfl⟩
  · exact ⟨rfl, rfl, rfl⟩
  · exact ⟨rfl, rfl, rfl⟩

theorem handleMessage_delivered (authToken : Option String) (now : Nat)
    (s : WSDispatchState) (message : InboundMessage) :
    (_handleMessage authToken now s message).delivered
      = s.delivered ++ [(message.type, message.payload)] := by
  unfold _handleMessage
  dsimp only
  split
  · rcases authToken with _ | token
    · rfl
    · rfl
  · rcases authToken with _ | token
    · rfl
    · rfl
  · rfl
  · rfl
  · rfl
  · rfl

theorem runInbound_seq_fields (authToken : Option String) (now : Nat)
    (msgs : List InboundMessage) (s : WSDispatchState) :
    (runInbound authToken now s msgs).outOfOrderCount = s.outOfOrderCount
    ∧ (runInbound authToken now s msgs).lastReceivedSequence
        = s.lastReceivedSequence
    ∧ (runInbound authToken now s msgs).messageSequence = s.messageSequence
    ∧ (runInbound authToken now s msgs).delivered
        = s.delivered ++ msgs.map (fun m => (m.type, m.payload)) := by
  induction msgs generalizing s with
  | nil =>
    exact ⟨rfl, rfl, rfl, by simp [runInbound]⟩
  | cons m msgs ih =>
    have hstep : runInbound authToken now s (m :: msgs)
        = runInbound authToken now (_handleMessage authToken now s m) msgs := rfl
    rw [hstep]
    have h1 := handleMessage_seq_fields authToken now s m
    have h2 := handleMessage_delivered authToken now s m
    have ihs := ih (_handleMessage authToken now s m)
    refine ⟨?_, ?_, ?_, ?_⟩
    · rw [ihs.1, h1.1]
    · rw [ihs.2.1, h1.2.1]
    · rw [ihs.2.2.1, h1.2.2]
    · rw [ihs.2.2.2, h2, List.map_cons, List.append_assoc,
        List.singleton_append]

end DispatchLemmas

/-- C8, checked on the code: `_handleMessage` never compares an inbound
message's `sequence` field with the last-seen sequence — over any inbound
trace the out-of-order counter and `lastReceivedSequence` keep their
initial values (first two conjuncts and the general fourth conjunct),
even on the failing input that delivers sequence 5 and then 3, while
messages are delivered to subscribers in receipt order (third and fifth
conjuncts); the sixth conjunct shows the documented-but-never-invoked
`trackMessageSequence` would have counted exactly that delivery as out of
order, which is the intent the claim and spec describe. -/
theorem C8_sequence_tracking_unwired :
    (runInbound none 0 wsDispatchInit
      [{ type := "data", payload := JVal.jnum 1, clientId := none,
         sequence := some 5 },
       { type := "data", payload := JVal.jnum 2, clientId := none,
         sequence := some 3 }]).outOfOrderCount = 0
    ∧ (runInbound none 0 wsDispatchInit
      [{ type := "data", payload := JVal.jnum 1, clientId := none,
         sequence := some 5 },
       { type := "data", payload := JVal.jnum 2, clientId := none,
         sequence := some 3 }]).lastReceivedSequence = -1
    ∧ (runInbound none 0 wsDispatchInit
      [{ type := "data", payload := JVal.jnum 1, clientId := none,
         sequence := some 5 },
       { type := "data", payload := JVal.jnum 2, clientId := none,
         sequence := some 3 }]).delivered =
      [("data", JVal.jnum 1), ("data", JVal.jnum 2)]
    ∧ (∀ (authToken : Option String) (now : Nat) (msgs : List InboundMessage)
        (s : WSDispatchState),
        (runInbound authToken now s msgs).outOfOrderCount = s.outOfOrderCount
        ∧ (runInbound authToken now s msgs).lastReceivedSequence
            = s.lastReceivedSequence)
    ∧ (∀ (authToken : Option String) (now : Nat) (msgs : List InboundMessage)
        (s : WSDispatchState),
        (runInbound authToken now s msgs).delivered
          = s.delivered ++ msgs.map (fun m => (m.type, m.payload)))
    ∧ (trackMessageSequence (trackMessageSequence wsDispatchInit (some 5))
        (some 3)).outOfOrderCount = 1 := by
  refine ⟨by decide, by decide, by decide, ?_, ?_, by decide⟩
  · intro authToken now msgs s
    exact ⟨(runInbound_seq_fields authToken now msgs s).1,
      (runInbound_seq_fields authToken now msgs s).2.1⟩
  · intro authToken now msgs s
    exact (runInbound_seq_fields authToken now msgs s).2.2.2

/-- Witness for C4 (amended): four ticks produce three misses, one dead
notification and one forced close; a close event then freezes both
counters through a further tick. -/
theorem C4_heartbeat_dead_once_witness :
    ((([30000, 60000, 90000, 120000] : List Nat).filter (fun t =>
        30000 + 5000 < t - 0)).length = 3)
    ∧ (hbRun { heartbeatInterval := 30000, heartbeatTimeout := 5000 }
        (_startHeartbeatMonitor 0 heartbeatIdle)
        (([30000, 60000, 90000, 120000] : List Nat).map HBEvent.tick
          ++ HBEvent.closeEvt :: [HBEvent.tick 150000])).deadFires = 1 :=
  ⟨by decide,
    (C4_heartbeat_dead_once
      { heartbeatInterval := 30000, heartbeatTimeout := 5000 } 0
      [30000, 60000, 90000, 120000] [HBEvent.tick 150000]
      (by decide)).2.2.1⟩

/-!
The request executor (`apiClient` in `client.js`): the per-URL in-flight
de-duplication decision.  `inFlightRequests` is the module-level map from
URL to the in-flight promise (promises are identified by a token);
`_executeFetch` itself (retry/backoff) is behind the promise and not
needed for this claim.  `hasSignal` models `options.signal` being an
AbortSignal (truthy) as opposed to the `null` default.
-/

structure ApiRequest where
  method : String := "GET"
  deduplicate : Bool := true
  hasSignal : Bool := false
  baseUrl : String := "/api"
  version : String := "v1"
  endpoint : String
deriving Repr, DecidableEq

/-- The request URL `${baseUrl}/${version}${endpoint}`. -/
def requestUrl (r : ApiRequest) : String :=
  r.baseUrl ++ "/" ++ r.version ++ r.endpoint

structure ApiClientState where
  inFlightRequests : List (String × Nat)
deriving Repr, DecidableEq

structure ApiCallResult where
  promiseId : Nat
  startedFetch : Bool
deriving Repr, DecidableEq

/-- `apiClient(endpoint, options)` up to the promise it returns:
`canDedup = method === 'GET' && deduplicate && !signal`; a deduplicable
request finding an in-flight entry returns that same promise without a
new fetch; otherwise a fresh `_executeFetch` promise is created and, when
deduplicable, recorded in the map. -/
def apiClient (st : ApiClientState) (r : ApiRequest) (freshId : Nat) :
    ApiClientState × ApiCallResult :=
  let url := requestUrl r
  let canDedup := decide (r.method = "GET") && r.deduplicate && !r.hasSignal
  if canDedup then
    match jmLookup st.inFlightRequests url with
    | some existing => (st, { promiseId := existing, startedFetch := false })
    | none =>
      ({ inFlightRequests := jmSet st.inFlightRequests url freshId },
       { promiseId := freshId, startedFetch := true })
  else (st, { promiseId := freshId, startedFetch := true })

/-- The settle cleanup `fetchPromise.then(() => delete, () => delete)`. -/
def apiSettle (st : ApiClientState) (url : String) : ApiClientState :=
  { inFlightRequests := jmDelete st.inFlightRequests url }

/-- C7: a GET carrying no cancellation signal (dedup option at its
default) starts one fetch, and a second concurrent identical GET receives
the same in-flight promise without a new network call; a request carrying
a signal always gets its own fresh fetch promise, is never recorded in
the in-flight map, and never shares a promise with any concurrent
request. -/
theorem C7_dedup_vs_cancellation (st : ApiClientState) (r : ApiRequest)
    (id₁ id₂ : Nat)
    (hget : r.method = "GET") (hdedup : r.deduplicate = true)
    (hnosig : r.hasSignal = false)
    (hnone : jmLookup st.inFlightRequests (requestUrl r) = none) :
    ((apiClient st r id₁).2.promiseId = id₁
      ∧ (apiClient st r id₁).2.startedFetch = true)
    ∧ ((apiClient (apiClient st r id₁).1 r id₂).2.promiseId = id₁
      ∧ (apiClient (apiClient st r id₁).1 r id₂).2.startedFetch = false)
    ∧ (∀ (st' : ApiClientState) (rs : ApiRequest) (idf : Nat),
        rs.hasSignal = true →
        (apiClient st' rs idf).2.promiseId = idf
        ∧ (apiClient st' rs idf).2.startedFetch = true
        ∧ (apiClient st' rs idf).1 = st'
        ∧ (∀ p ∈ st'.inFlightRequests, p.2 ≠ idf →
            (apiClient st' rs idf).2.promiseId ≠ p.2)) := by
  have hdd : (decide (r.method = "GET") && r.deduplicate && !r.hasSignal) = true := by
    rw [hget, hdedup, hnosig]
    rfl
  have h₁ : apiClient st r id₁ =
      ({ inFlightRequests := jmSet st.inFlightRequests (requestUrl r) id₁ },
       { promiseId := id₁, startedFetch := true }) := by
    unfold apiClient
    rw [hdd]
    dsimp only
    rw [if_pos rfl, hnone]
  refine ⟨?_, ?_, ?_⟩
  · rw [h₁]
    exact ⟨rfl, rfl⟩
  · rw [h₁]
    have h₂ : jmLookup (jmSet st.inFlightRequests (requestUrl r) id₁)
        (requestUrl r) = some id₁ := jmLookup_set_self _ _ _
    unfold apiClient
    rw [hdd]
    dsimp only
    rw [if_pos rfl, h₂]
    exact ⟨rfl, rfl⟩
  · intro st' rs idf hsig
    have hdd' : (decide (rs.method = "GET") && rs.deduplicate && !rs.hasSignal)
        = false := by
      rw [hsig]
      simp
    have h₃ : apiClient st' rs idf
        = (st', { promiseId := idf, startedFetch := true }) := by
      unfold apiClient
      rw [hdd']
      dsimp only
      rw [if_neg (by simp)]
    rw [h₃]
    refine ⟨rfl, rfl, rfl, ?_⟩
    intro p _ hne
    exact fun hc => hne (hc.symm)

/-- Witness for C7: two GETs to `/users` share promise 1; a third with an
abort signal gets its own promise 2 and leaves the map alone. -/
theorem C7_dedup_vs_cancellation_witness :
    ({ endpoint := "/users" } : ApiRequest).method = "GET"
    ∧ (apiClient (apiClient { inFlightRequests := [] }
        { endpoint := "/users" } 1).1 { endpoint := "/users" } 2).2.promiseId = 1 :=
  ⟨by decide,
    (C7_dedup_vs_cancellation { inFlightRequests := [] }
      { endpoint := "/users" } 1 2 (by decide) (by decide) (by decide)
      (by decide)).2.1.1⟩

/-!
ConnectionPool (`ConnectionPool.js`): `acquire`'s slot logic, the idle
eviction scan and the acquire-timeout callback.  A waiter's `wid` stands
for the identity of the promise executor's `resolve` function, which the
timeout callback uses with `findIndex` to splice the stale entry out of
the wait queue before rejecting.
-/

structure PooledConnection where
  refCount : Nat
  connected : Bool
  createdAt : Nat
  lastUsedAt : Nat
deriving Repr, DecidableEq

structure PoolWaiter where
  wid : Nat
  url : String
  timeoutMs : Nat
deriving Repr, DecidableEq

structure ConnectionPool where
  maxConnections : Nat
  connections : List (String × PooledConnection)
  waitQueue : List PoolWaiter
deriving Repr, DecidableEq

inductive AcquireResult where
  | reused
  | created
  | queued (w : PoolWaiter)
deriving Repr, DecidableEq

/-- `_evictIdle()`: scan the connections in iteration order for the
refCount-0 entry with the least `lastUsedAt` (strict comparison, so the
first seen wins ties); report its url. -/
def _evictIdle (conns : List (String × PooledConnection)) : Option String :=
  (conns.foldl
    (fun best p =>
      if p.2.refCount = 0 then
        match best with
        | none => some p
        | some b => if p.2.lastUsedAt < b.2.lastUsedAt then some p else some b
      else best)
    none).map Prod.fst

/-- Creating and connecting a fresh manager for `url` (refCount 1; the
socket is still CONNECTING so `connected` starts false). -/
def poolCreate (pool : ConnectionPool) (url : String) (now : Nat) :
    ConnectionPool × AcquireResult :=
  let conn : PooledConnection :=
    { refCount := 1
      connected := false
      createdAt := now
      lastUsedAt := now }
  ({ pool with connections := jmSet pool.connections url conn }, .created)

/-- The capacity branch of `acquire`: at `maxConnections`, evict the LRU
idle connection if one exists (destroying it) and create; otherwise push
a waiter (FIFO) whose timeout is `connectionOptions.acquireTimeout ||
10000` ms. -/
def poolAcquireSlot (pool : ConnectionPool) (url : String)
    (acquireTimeout : Option Nat) (now : Nat) (freshWid : Nat) :
    ConnectionPool × AcquireResult :=
  if pool.maxConnections ≤ pool.connections.length then
    match _evictIdle pool.connections with
    | some evictUrl =>
      poolCreate { pool with connections := jmDelete pool.connections evictUrl }
        url now
    | none =>
      let w : PoolWaiter :=
        { wid := freshWid
          url := url
          timeoutMs := jsOrNat acquireTimeout 10000 }
      ({ pool with waitQueue := pool.waitQueue ++ [w] }, .queued w)
  else poolCreate pool url now

/-- `acquire(url, connectionOptions)`: reuse a connected entry for the
same url (bumping its refCount), otherwise go through the capacity
logic. -/
def ConnectionPool.acquire (pool : ConnectionPool) (url : String)
    (acquireTimeout : Option Nat) (now : Nat) (freshWid : Nat) :
    ConnectionPool × AcquireResult :=
  match jmLookup pool.connections url with
  | some existing =>
    if existing.connected then
      let conn := { existing with refCount := existing.refCount + 1 }
      ({ pool with connections := jmSet pool.connections url conn }, .reused)
    else poolAcquireSlot pool url acquireTimeout now freshWid
  | none => poolAcquireSlot pool url acquireTimeout now freshWid

def poolExhaustedMessage : String :=
  "Connection pool exhausted: timeout waiting for available connection"

/-- JS `Array.prototype.findIndex`: the index of the first element
satisfying the predicate, `-1` when there is none. -/
def jsFindIndex (p : PoolWaiter → Bool) : List PoolWaiter → Int
  | [] => -1
  | x :: rest =>
    if p x then 0
    else
      let r := jsFindIndex p rest
      if r = -1 then -1 else r + 1

/-- The `setTimeout` callback armed when a caller is queued: find the
waiter by its resolve identity, splice it out if still queued (`idx !==
-1`), and reject with the pool-exhausted error. -/
def poolTimeoutFire (pool : ConnectionPool) (wid : Nat) :
    ConnectionPool × String :=
  let idx := jsFindIndex (fun w => w.wid == wid) pool.waitQueue
  let q := if idx = -1 then pool.waitQueue
           else pool.waitQueue.eraseIdx idx.toNat
  ({ pool with waitQueue := q }, poolExhaustedMessage)

section PoolLemmas

theorem evictIdle_none (conns : List (String × PooledConnection))
    (h : ∀ p ∈ conns, p.2.refCount ≠ 0) : _evictIdle conns = none := by
  unfold _evictIdle
  have hfold : conns.foldl
      (fun best p =>
        if p.2.refCount = 0 then
          match best with
          | none => some p
          | some b => if p.2.lastUsedAt < b.2.lastUsedAt then some p else some b
        else best)
      none = none := by
    induction conns with
    | nil => rfl
    | cons p conns ih =>
      rw [List.foldl_cons, if_neg (h p (List.mem_cons_self p conns))]
      exact ih (fun q hq => h q (List.mem_cons_of_mem p hq))
  rw [hfold]
  rfl

theorem jsFindIndex_append_last (q : List PoolWaiter) (w : PoolWaiter)
    (n : Nat) (hw : w.wid = n) (h : ∀ x ∈ q, x.wid ≠ n) :
    jsFindIndex (fun x => x.wid == n) (q ++ [w]) = (q.length : Int) := by
  induction q with
  | nil =>
    rw [List.nil_append, jsFindIndex, if_pos (by simp [hw])]
    rfl
  | cons x q ih =>
    rw [List.cons_append, jsFindIndex,
      if_neg (by simpa using h x (List.mem_cons_self x q))]
    dsimp only
    rw [ih (fun y hy => h y (List.mem_cons_of_mem x hy))]
    rw [if_neg (by omega), List.length_cons]
    push_cast
    ring

theorem eraseIdx_append_last (q : List PoolWaiter) (w : PoolWaiter) :
    (q ++ [w]).eraseIdx q.length = q := by
  induction q with
  | nil => rfl
  | cons x q ih =>
    rw [List.cons_append, List.length_cons, List.eraseIdx_cons_succ, ih]

end PoolLemmas

/-- C9: with the pool at capacity, no idle (refCount 0) connection, and
no reusable connected entry for the url, `acquire` appends the caller to
the wait queue (FIFO) with timeout `acquireTimeout || 10000` ms; when the
timeout fires the waiter is spliced out of the queue — leaving exactly
the previous queue, no stale entry — and the call rejects with the
pool-exhausted error. -/
theorem C9_pool_exhausted_timeout (pool : ConnectionPool) (url : String)
    (acquireTimeout : Option Nat) (now freshWid : Nat)
    (hcap : pool.maxConnections ≤ pool.connections.length)
    (hnoidle : ∀ p ∈ pool.connections, p.2.refCount ≠ 0)
    (hnoconn : (jmLookup pool.connections url).all (fun c => !c.connected) = true)
    (hfresh : ∀ w ∈ pool.waitQueue, w.wid ≠ freshWid) :
    pool.acquire url acquireTimeout now freshWid =
      ({ pool with waitQueue := pool.waitQueue ++
          [{ wid := freshWid
             url := url
             timeoutMs := jsOrNat acquireTimeout 10000 }] },
       .queued { wid := freshWid
                 url := url
                 timeoutMs := jsOrNat acquireTimeout 10000 })
    ∧ (poolTimeoutFire (pool.acquire url acquireTimeout now freshWid).1
        freshWid).1.waitQueue = pool.waitQueue
    ∧ (poolTimeoutFire (pool.acquire url acquireTimeout now freshWid).1
        freshWid).2 = poolExhaustedMessage := by
  have hslot : poolAcquireSlot pool url acquireTimeout now freshWid =
      ({ pool with waitQueue := pool.waitQueue ++
          [{ wid := freshWid
             url := url
             timeoutMs := jsOrNat acquireTimeout 10000 }] },
       .queued { wid := freshWid
                 url := url
                 timeoutMs := jsOrNat acquireTimeout 10000 }) := by
    unfold poolAcquireSlot
    rw [if_pos hcap, evictIdle_none pool.connections hnoidle]
  have hacq : pool.acquire url acquireTimeout now freshWid =
      ({ pool with waitQueue := pool.waitQueue ++
          [{ wid := freshWid
             url := url
             timeoutMs := jsOrNat acquireTimeout 10000 }] },
       .queued { wid := freshWid
                 url := url
                 timeoutMs := jsOrNat acquireTimeout 10000 }) := by
    unfold ConnectionPool.acquire
    rcases hl : jmLookup pool.connections url with _ | c
    · exact hslot
    · rw [hl] at hnoconn
      have hc : c.connected = false := by simpa using hnoconn
      dsimp only
      rw [hc]
      exact hslot
  refine ⟨hacq, ?_, rfl⟩
  rw [hacq]
  unfold poolTimeoutFire
  dsimp only
  rw [jsFindIndex_append_last pool.waitQueue _ freshWid rfl hfresh]
  rw [if_neg (by omega), Int.toNat_natCast]
  exact eraseIdx_append_last pool.waitQueue _

/-- Witness for C9: a full one-slot pool with a busy connection queues the
caller with the default 10000 ms timeout and removes it again when the
timeout fires. -/
theorem C9_pool_exhausted_timeout_witness :
    (1 : Nat) ≤ 1 ∧
    (poolTimeoutFire
      (ConnectionPool.acquire
        { maxConnections := 1
          connections := [("ws://a",
            { refCount := 2
              connected := true
              createdAt := 0
              lastUsedAt := 0 })]
          waitQueue := [] } "ws://b" none 5 7).1 7).1.waitQueue = [] :=
  ⟨by decide,
    (C9_pool_exhausted_timeout
      { maxConnections := 1
        connections := [("ws://a",
          { refCount := 2
            connected := true
            createdAt := 0
            lastUsedAt := 0 })]
        waitQueue := [] } "ws://b" none 5 7 (by decide) (by decide)
      (by decide) (by decide)).2.1⟩

end Spec2Proof
